import Mathlib

/-!
A shallow embedding of the order-book matching engine of
`jutinyang/golang_match_order` (Go), and proofs about it.

Source layout: the repository contains two near-identical copies of the
engine (package `main` and package `model`).  The `main` copy is complete
for the book structure and iteration (`main/match.go` drives the opposing
side with `Ascend` for an incoming buy and `Descend` for an incoming sell,
over btrees whose `PriceLevelItem.Less` compares prices ascending,
`main/model.go`), but elides the trade-record literal with a comment
saying the logic is unchanged; the `model` copy (`model/match.go`) carries
the full trade construction (price, quantity, maker/taker ids, fee).  The
embedding below therefore follows `main/match.go` / `main/order.go` for
control flow and data structure updates and `model/match.go` lines 69-80
for the emitted trade record.

Modelling conventions:
* `big.Float` prices and quantities are modelled as exact rationals.  All
  book arithmetic in the source is add/sub/compare of values created by
  `big.NewFloat`; the 53-bit binary rounding of `big.Float` is modelled
  explicitly (`BigFloat`, below) for the fee computation, where the claim
  under check is about the arithmetic itself.
* The two btrees (`ob.Bids`, `ob.Asks`) are modelled as strictly sorted
  lists of the prices they hold; `Ascend` is iteration over the list,
  `Descend` iteration over its reverse.  The `Level` pointer carried by a
  tree item aliases the level stored in `ob.PriceLevels`, so visiting a
  tree item dereferences the map entry at that price.
* `ob.PriceLevels` (Go: map from `price.String()` to `*PriceLevel`) is an
  association list keyed by the rational price.  (`big.Float.String()`
  truncates to 10 significant digits; that truncation is not modelled —
  every price in the claims is far shorter.)
* `ob.OrderMap` maps order ids to `*Order` pointers that alias the order
  objects sitting in the level FIFOs; the model keeps the key set and
  reads an order's value through the levels (`findOrder`).
* `time.Now().UnixNano()` is a `now : Int` parameter; `uuid.New()` for
  trade ids is not modelled (the trade id field is set to `""`).
* Go `error` returns are `Except` with small inductives naming the
  `fmt.Errorf` cases.
-/

/- Mathlib marks the kernel arithmetic of `Rat` irreducible; the concrete
scenario theorems below evaluate whole book states by kernel reduction
(`decide`), which needs these operations unfolded. -/
attribute [local semireducible] Rat.add Rat.sub Rat.mul Rat.inv

deriving instance DecidableEq for Except

namespace GolangMatchOrder

/-- Go `SideBuy` / `SideSell` (string constants in `main/model.go`). -/
inductive Side
  | buy
  | sell
deriving DecidableEq

/-- Go order status string constants in `main/model.go`:
`StatusPending`, `StatusPartiallyFilled` (here `partFilled`),
`StatusFilled`, `StatusCancelled`. -/
inductive OrderStatus
  | pending
  | partFilled
  | filled
  | cancelled
deriving DecidableEq

/-- Go `Order` struct (`main/model.go` lines 27-39). -/
structure Order where
  orderID : String
  userID : String
  symbol : String
  side : Side
  price : ℚ
  quantity : ℚ
  remaining : ℚ
  status : OrderStatus
  createTime : Int
  updateTime : Int
  isMarket : Bool
deriving DecidableEq

/-- Go `Trade` struct (`main/model.go` lines 42-53).  The `Fee` field
(computed by `calculateFee` over `big.Float`) is modelled separately by
`calculateFee` on `BigFloat` below, where the numerical claim needs the
binary floating-point semantics; the `TradeID` (a fresh uuid) is set to
`""`. -/
structure Trade where
  tradeID : String
  symbol : String
  price : ℚ
  quantity : ℚ
  makerOrderID : String
  takerOrderID : String
  makerUserID : String
  takerUserID : String
  tradeTime : Int
deriving DecidableEq

/-- Go `PriceLevel` struct (`main/model.go` lines 56-62): price, aggregate
quantity, FIFO of orders (head = oldest).  The per-level
`OrderMap : id → *list.Element` is an index over exactly the FIFO members
and is modelled by membership in `orders`. -/
structure PriceLevel where
  price : ℚ
  totalQty : ℚ
  orders : List Order
deriving DecidableEq

/-- Go `OrderBook` struct (`main/model.go` lines 78-86).  `bids`/`asks`
are the price keys held by the two btrees, kept sorted ascending (the
order maintained by `PriceLevelItem.Less`, `main/model.go` lines 71-75);
`priceLevels` is the price → level map owning the levels; `orderMap` is
the key set of the global id map (its values alias level members). -/
structure OrderBook where
  symbol : String
  bids : List ℚ
  asks : List ℚ
  priceLevels : List (ℚ × PriceLevel)
  orderMap : List String
deriving DecidableEq

/-- Lookup in the price → level map. -/
def levelLookup (m : List (ℚ × PriceLevel)) (p : ℚ) : Option PriceLevel :=
  (m.find? (fun e => e.1 == p)).map (fun e => e.2)

/-- Write back a level at key `p` (Go mutates the level object shared by
the map entry and the tree item in place). -/
def setLevel (m : List (ℚ × PriceLevel)) (p : ℚ) (l : PriceLevel) :
    List (ℚ × PriceLevel) :=
  m.map (fun e => if e.1 == p then (e.1, l) else e)

/-- Go `delete(ob.PriceLevels, priceStr)`. -/
def eraseLevel (m : List (ℚ × PriceLevel)) (p : ℚ) : List (ℚ × PriceLevel) :=
  m.filter (fun e => e.1 != p)

/-- Go `tree.ReplaceOrInsert(&PriceLevelItem{Price: ..})` on a btree
ordered by ascending price. -/
def insertSorted (p : ℚ) : List ℚ → List ℚ
  | [] => [p]
  | q :: qs =>
    if p < q then p :: q :: qs
    else if p == q then p :: qs
    else q :: insertSorted p qs

/-- Go `tree.Delete(&PriceLevelItem{Price: p, ..})`. -/
def removePrice (ps : List ℚ) (p : ℚ) : List ℚ :=
  ps.filter (fun q => q != p)

/-- Dereference `ob.OrderMap[id]`: the stored pointer aliases the order
object inside its level's FIFO, so the value is read through the levels. -/
def OrderBook.findOrder (ob : OrderBook) (id : String) : Option Order :=
  (ob.priceLevels.map (fun e => e.2)).findSome?
    (fun l => l.orders.find? (fun o => o.orderID == id))

/-- The error of Go `AddOrder` (`fmt.Errorf("order %s exists", ..)`,
`main/order.go` line 29). -/
inductive AddErr
  | duplicate
deriving DecidableEq

/-- Go `OrderBook.AddOrder` (`main/order.go` lines 24-66): reject a live
duplicate id; find or create the level for the order's price (a fresh
level is registered in the price map and in the side's btree); append the
order to the level FIFO, add its remaining quantity to the level
aggregate, and record it in the global id map. -/
def OrderBook.addOrder (ob : OrderBook) (order : Order) : Except AddErr OrderBook :=
  if order.orderID ∈ ob.orderMap then
    .error AddErr.duplicate
  else
    match levelLookup ob.priceLevels order.price with
    | some level =>
      let level2 : PriceLevel :=
        { level with
          totalQty := level.totalQty + order.remaining
          orders := level.orders ++ [order] }
      .ok { ob with
        priceLevels := setLevel ob.priceLevels order.price level2
        orderMap := order.orderID :: ob.orderMap }
    | none =>
      let level2 : PriceLevel :=
        { price := order.price
          totalQty := 0 + order.remaining
          orders := [order] }
      .ok { ob with
        priceLevels := (order.price, level2) :: ob.priceLevels
        asks := if order.side = Side.sell then insertSorted order.price ob.asks else ob.asks
        bids := if order.side = Side.buy then insertSorted order.price ob.bids else ob.bids
        orderMap := order.orderID :: ob.orderMap }

/-- The trade record built in `model/match.go` lines 69-80 (price = the
resting level's price, maker = the resting order, taker = the incoming
order). -/
def mkTrade (now : Int) (taker resting : Order) (price matchQty : ℚ) : Trade :=
  { tradeID := ""
    symbol := taker.symbol
    price := price
    quantity := matchQty
    makerOrderID := resting.orderID
    takerOrderID := taker.orderID
    makerUserID := resting.userID
    takerUserID := taker.userID
    tradeTime := now }

/-- Result of walking one level's FIFO (the inner loop of
`traversePriceLevel`, `main/match.go` lines 71-117). -/
structure WalkRes where
  fifo : List Order
  totalQty : ℚ
  remaining : ℚ
  trades : List Trade
  takerFilled : Bool
  taker : Order
deriving DecidableEq

/-- The FIFO walk of one price level (`main/match.go` lines 71-117,
trade construction per `model/match.go` lines 60-110).  Orders whose
status is not `pending` are skipped (the source's test is
`restingOrder.Status != StatusPending`).  For a participating order the
matched quantity is the smaller of the two remaining quantities; the
resting order's remaining, the incoming remaining and the level aggregate
are decremented; the resting order becomes `filled` (remaining hit zero)
or `partFilled`; if the incoming remaining hits zero the walk stops with
the incoming order marked `filled`. -/
def walkFifo (now : Int) (taker : Order) (price : ℚ) :
    ℚ → ℚ → List Order → WalkRes
  | totalQty, remaining, [] => ⟨[], totalQty, remaining, [], false, taker⟩
  | totalQty, remaining, resting :: rest =>
    if resting.status ≠ OrderStatus.pending then
      let r := walkFifo now taker price totalQty remaining rest
      { r with fifo := resting :: r.fifo }
    else
      let matchQty := if remaining > resting.remaining then resting.remaining else remaining
      let trade := mkTrade now taker resting price matchQty
      let remaining2 := remaining - matchQty
      let restRem2 := resting.remaining - matchQty
      let resting2 : Order :=
        { resting with
          remaining := restRem2
          status := if restRem2 = 0 then OrderStatus.filled else OrderStatus.partFilled
          updateTime := now }
      let totalQty2 := totalQty - matchQty
      if remaining2 = 0 then
        ⟨resting2 :: rest, totalQty2, remaining2, [trade], true,
          { taker with status := OrderStatus.filled, remaining := remaining2, updateTime := now }⟩
      else
        let r := walkFifo now taker price totalQty2 remaining2 rest
        ⟨resting2 :: r.fifo, r.totalQty, r.remaining, trade :: r.trades, r.takerFilled, r.taker⟩

/-- Go test `restingOrder.Status == StatusFilled || restingOrder.Status == StatusCancelled`. -/
def completedOrCancelled (o : Order) : Bool :=
  o.status == OrderStatus.filled || o.status == OrderStatus.cancelled

/-- Go `OrderBook.processCompletedOrders` (`main/match.go` lines 126-169):
remove `filled`/`cancelled` orders from the level FIFO and from the global
id map; if the level is left empty, delete it from the price map and from
the side btree.  The btree chosen for the delete is `Asks` unless the last
order iterated (the tail of the original FIFO) was a buy
(`restingOrder != nil && restingOrder.Side == SideBuy`). -/
def OrderBook.processCompletedOrders (ob : OrderBook) (level : PriceLevel) : OrderBook :=
  let removed := level.orders.filter completedOrCancelled
  let kept := level.orders.filter (fun o => !(completedOrCancelled o))
  let removedIds := removed.map (fun o => o.orderID)
  let orderMap2 := ob.orderMap.filter (fun k => !(removedIds.contains k))
  if kept.isEmpty then
    let lastSide : Option Side := (level.orders.getLast?).map (fun o => o.side)
    { ob with
      priceLevels := eraseLevel ob.priceLevels level.price
      orderMap := orderMap2
      asks := if lastSide = some Side.buy then ob.asks else removePrice ob.asks level.price
      bids := if lastSide = some Side.buy then removePrice ob.bids level.price else ob.bids }
  else
    { ob with
      priceLevels := setLevel ob.priceLevels level.price { level with orders := kept }
      orderMap := orderMap2 }

/-- The price-acceptance predicate built in `MatchOrder`
(`main/match.go` lines 22-23 and 31-32): a market order matches any level;
a limit buy matches a level priced at or below its limit; a limit sell a
level priced at or above its limit. -/
def isMatchFn (newOrder : Order) : ℚ → Bool := fun oppositePrice =>
  match newOrder.side with
  | Side.buy => newOrder.isMarket || decide (oppositePrice ≤ newOrder.price)
  | Side.sell => newOrder.isMarket || decide (newOrder.price ≤ oppositePrice)

/-- Result of the level iteration (the `Ascend`/`Descend` run over
`traversePriceLevel`). -/
structure LoopRes where
  book : OrderBook
  remaining : ℚ
  trades : List Trade
  taker : Order
  completed : Bool
deriving DecidableEq

/-- The btree iteration of `MatchOrder` with the per-level body
`traversePriceLevel` (`main/match.go` lines 26-38 and 53-123): visit the
opposing side's levels in iteration order; stop at the first level whose
price the incoming order does not accept; otherwise walk the level's FIFO,
write the mutated level back, reap completed orders
(`processCompletedOrders`), and stop if the incoming order filled.
A tree price with no map entry cannot arise in the source (the tree item
holds a pointer to the same level object); the model skips it. -/
def matchLoop (now : Int) (accept : ℚ → Bool) :
    List ℚ → OrderBook → ℚ → Order → LoopRes
  | [], ob, remaining, taker => ⟨ob, remaining, [], taker, false⟩
  | p :: ps, ob, remaining, taker =>
    match levelLookup ob.priceLevels p with
    | none => matchLoop now accept ps ob remaining taker
    | some level =>
      if !(accept level.price) then ⟨ob, remaining, [], taker, false⟩
      else
        let w := walkFifo now taker level.price level.totalQty remaining level.orders
        let level2 : PriceLevel := { level with totalQty := w.totalQty, orders := w.fifo }
        let ob2 : OrderBook := { ob with priceLevels := setLevel ob.priceLevels p level2 }
        let ob3 := ob2.processCompletedOrders level2
        if w.takerFilled then ⟨ob3, w.remaining, w.trades, w.taker, true⟩
        else
          let r := matchLoop now accept ps ob3 w.remaining w.taker
          ⟨r.book, r.remaining, w.trades ++ r.trades, r.taker, r.completed⟩

/-- The matching phase of `MatchOrder` (`main/match.go` lines 11-38):
an incoming buy walks the ask tree ascending (best ask first), an incoming
sell walks the bid tree descending (best bid first). -/
def OrderBook.matchPhase (ob : OrderBook) (now : Int) (newOrder : Order) : LoopRes :=
  let iter :=
    match newOrder.side with
    | Side.buy => ob.asks
    | Side.sell => ob.bids.reverse
  matchLoop now (isMatchFn newOrder) iter ob newOrder.remaining newOrder

/-- What `MatchOrder` leaves behind: the book, the incoming order's final
state, and the emitted trades (the function's only return value is the
trade slice; the order is mutated through its pointer). -/
structure MatchResult where
  book : OrderBook
  order : Order
  trades : List Trade
deriving DecidableEq

/-- Go `OrderBook.MatchOrder` (`main/match.go` lines 11-50): run the
matching phase; if the incoming order was not filled and has positive
residual, set its remaining, mark it `StatusPartiallyFilled`, stamp it,
and insert it with `AddOrder` — whose error return is discarded
(`main/match.go` line 45: `ob.AddOrder(newOrder)`).  There is no test of
`IsMarket` on this path. -/
def OrderBook.matchOrder (ob : OrderBook) (now : Int) (newOrder : Order) : MatchResult :=
  let r := ob.matchPhase now newOrder
  if r.completed = false ∧ r.remaining > 0 then
    let resting : Order :=
      { r.taker with
        remaining := r.remaining
        status := OrderStatus.partFilled
        updateTime := now }
    match r.book.addOrder resting with
    | .ok ob2 => ⟨ob2, resting, r.trades⟩
    | .error _ => ⟨r.book, resting, r.trades⟩
  else ⟨r.book, r.taker, r.trades⟩

/-- The `fmt.Errorf` cases of Go `CancelOrder` (`main/order.go`
lines 69-125), in source order: id absent from the global map; status not
cancellable; the price level for the order's price missing; the order
missing from the level's id index. -/
inductive CancelErr
  | notFound
  | notCancellable
  | levelNotFound
  | notInLevel
deriving DecidableEq

/-- Go `OrderBook.CancelOrder` (`main/order.go` lines 69-125, identical in
`model/order.go`): look the order up in the global id map; reject if its
status is neither `pending` nor `partFilled`; find its price level; remove
it from the level FIFO and id index and subtract its remaining quantity
from the level aggregate; if the level emptied, delete the level from the
price map and from its side's btree; mark the order `cancelled` with a
fresh update timestamp; delete the id from the global map. -/
def OrderBook.cancelOrder (ob : OrderBook) (now : Int) (orderID : String) :
    Except CancelErr (OrderBook × Order) :=
  if orderID ∈ ob.orderMap then
    match ob.findOrder orderID with
    | none => .error CancelErr.notFound
    | some order =>
      if order.status ≠ OrderStatus.pending ∧ order.status ≠ OrderStatus.partFilled then
        .error CancelErr.notCancellable
      else
        match levelLookup ob.priceLevels order.price with
        | none => .error CancelErr.levelNotFound
        | some level =>
          if (level.orders.find? (fun o => o.orderID == orderID)).isSome then
            let level2 : PriceLevel :=
              { level with
                orders := level.orders.filter (fun o => o.orderID != orderID)
                totalQty := level.totalQty - order.remaining }
            let ob2 : OrderBook :=
              if level2.orders.isEmpty then
                { ob with
                  priceLevels := eraseLevel ob.priceLevels order.price
                  asks := if order.side = Side.buy then ob.asks else removePrice ob.asks order.price
                  bids := if order.side = Side.buy then removePrice ob.bids order.price else ob.bids }
              else
                { ob with priceLevels := setLevel ob.priceLevels order.price level2 }
            let cancelled : Order :=
              { order with status := OrderStatus.cancelled, updateTime := now }
            .ok ({ ob2 with orderMap := ob2.orderMap.filter (fun k => k != orderID) }, cancelled)
          else .error CancelErr.notInLevel
  else .error CancelErr.notFound

/-! ### The `big.Float` fee computation

`calculateFee` (`model/match.go` lines 166-171) multiplies over
`big.Float` values created with `big.NewFloat`, i.e. binary
floating-point numbers of precision 53 rounded to nearest, ties to even.
A finite `big.Float` is a mantissa times a power of two; multiplication
computes the exact product mantissa and rounds it to 53 significant bits.
-/

/-- A finite `big.Float` value: `mant * 2 ^ exp`. -/
structure BigFloat where
  mant : Int
  exp : Int
deriving DecidableEq

/-- The rational value of a `big.Float`: `mant * 2 ^ exp` (written with
natural-number powers so that the kernel can evaluate it). -/
def BigFloat.toRat (x : BigFloat) : ℚ :=
  if 0 ≤ x.exp then (x.mant : ℚ) * ((2 ^ x.exp.toNat : ℕ) : ℚ)
  else (x.mant : ℚ) / ((2 ^ (- x.exp).toNat : ℕ) : ℚ)

/-- How many halvings bring `n` under `2 ^ 53` (the number of mantissa
bits beyond 53); fuel-driven so that the kernel can evaluate it.  Every
mantissa this development feeds it is a product of two precision-53
mantissas, hence of at most 106 bits, so 64 units of fuel are ample. -/
def excessBits : Nat → Nat → Nat
  | 0, _ => 0
  | fuel + 1, n => if n < 2 ^ 53 then 0 else excessBits fuel (n / 2) + 1

/-- Round a positive mantissa to 53 significant bits, to nearest, ties to
even; returns the rounded mantissa and the exponent shift. -/
def roundMant53 (n : Nat) : Nat × Nat :=
  let s := excessBits 64 n
  if s = 0 then (n, 0)
  else
    let q := n / 2 ^ s
    let r := n % 2 ^ s
    let half := 2 ^ (s - 1)
    (if half < r ∨ (r = half ∧ q % 2 = 1) then q + 1 else q, s)

/-- `big.Float` multiplication at precision 53 (`z.Mul(x, y)` with
`z = big.NewFloat(0)`, whose precision is 53 and rounding mode
`ToNearestEven`). -/
def BigFloat.mul (x y : BigFloat) : BigFloat :=
  let m := x.mant * y.mant
  if m = 0 then ⟨0, 0⟩
  else
    let p := roundMant53 m.natAbs
    ⟨Int.sign m * (p.1 : Int), x.exp + y.exp + (p.2 : Int)⟩

/-- `feeRate := big.NewFloat(0.001)` (`model/match.go` line 169): the Go
literal `0.001` is a `float64`, the 53-bit binary float nearest `1/1000`,
namely `4611686018427388 * 2 ^ (-62)`. -/
def feeRate : BigFloat := ⟨4611686018427388, -62⟩

/-- Go `calculateFee` (`model/match.go` lines 166-171):
`amount = quantity * price; fee = amount * feeRate`, each product rounded
to 53 bits. -/
def calculateFee (quantity price : BigFloat) : BigFloat :=
  let amount := BigFloat.mul quantity price
  BigFloat.mul amount feeRate

/-! ### Lemmas about the FIFO walk -/

/-- The remaining quantity after a FIFO walk is the input remaining minus
the total traded quantity. -/
theorem walkFifo_remaining (now : Int) (taker : Order) (price : ℚ)
    (tq rem : ℚ) (os : List Order) :
    (walkFifo now taker price tq rem os).remaining
      = rem - ((walkFifo now taker price tq rem os).trades.map (fun t => t.quantity)).sum := by
  induction os generalizing tq rem with
  | nil => simp [walkFifo]
  | cons resting rest ih =>
    by_cases hs : resting.status = OrderStatus.pending
    · rw [walkFifo]
      simp only [hs, ne_eq, not_true_eq_false, if_false]
      by_cases hz : rem - (if rem > resting.remaining then resting.remaining else rem) = 0
      · simp [hz, mkTrade]
      · simp only [hz, if_false, if_neg hz]
        rw [ih]
        simp [mkTrade]
        ring
    · rw [walkFifo]
      simp only [ne_eq, hs, not_false_eq_true, if_true]
      exact ih tq rem

/-- A walk that did not fill the incoming order leaves it untouched. -/
theorem walkFifo_taker (now : Int) (taker : Order) (price : ℚ)
    (tq rem : ℚ) (os : List Order)
    (h : (walkFifo now taker price tq rem os).takerFilled = false) :
    (walkFifo now taker price tq rem os).taker = taker := by
  induction os generalizing tq rem with
  | nil => simp [walkFifo]
  | cons resting rest ih =>
    by_cases hs : resting.status = OrderStatus.pending
    · rw [walkFifo] at h ⊢
      simp only [hs, ne_eq, not_true_eq_false, if_false] at h ⊢
      by_cases hz : rem - (if rem > resting.remaining then resting.remaining else rem) = 0
      · simp [hz] at h
      · simp only [hz, if_false, if_neg hz] at h ⊢
        exact ih _ _ h
    · rw [walkFifo] at h ⊢
      simp only [ne_eq, hs, not_false_eq_true, if_true] at h ⊢
      exact ih tq rem h

/-- A walk that traded without filling the incoming order leaves a
strictly positive remaining quantity. -/
theorem walkFifo_pos (now : Int) (taker : Order) (price : ℚ)
    (tq rem : ℚ) (os : List Order)
    (hf : (walkFifo now taker price tq rem os).takerFilled = false)
    (ht : (walkFifo now taker price tq rem os).trades ≠ []) :
    0 < (walkFifo now taker price tq rem os).remaining := by
  induction os generalizing tq rem with
  | nil => simp [walkFifo] at ht
  | cons resting rest ih =>
    by_cases hs : resting.status = OrderStatus.pending
    · rw [walkFifo] at hf ht ⊢
      simp only [hs, ne_eq, not_true_eq_false, if_false] at hf ht ⊢
      by_cases hz : rem - (if rem > resting.remaining then resting.remaining else rem) = 0
      · simp [hz] at hf
      · simp only [hz, if_false, if_neg hz] at hf ht ⊢
        by_cases htr : (walkFifo now taker price
            (tq - if rem > resting.remaining then resting.remaining else rem)
            (rem - if rem > resting.remaining then resting.remaining else rem) rest).trades = []
        · rw [walkFifo_remaining, htr]
          simp only [List.map_nil, List.sum_nil, sub_zero]
          by_cases hgt : rem > resting.remaining
          · simp only [hgt, if_true, if_pos hgt]
            linarith
          · exfalso
            apply hz
            simp [hgt]
        · exact ih _ _ hf htr
    · rw [walkFifo] at hf ht ⊢
      simp only [ne_eq, hs, not_false_eq_true, if_true] at hf ht ⊢
      exact ih tq rem hf ht

/-- A walk that filled the incoming order zeroed both the threaded
remaining quantity and the order's remaining field. -/
theorem walkFifo_filled (now : Int) (taker : Order) (price : ℚ)
    (tq rem : ℚ) (os : List Order)
    (h : (walkFifo now taker price tq rem os).takerFilled = true) :
    (walkFifo now taker price tq rem os).remaining = 0
      ∧ (walkFifo now taker price tq rem os).taker.remaining = 0 := by
  induction os generalizing tq rem with
  | nil => simp [walkFifo] at h
  | cons resting rest ih =>
    by_cases hs : resting.status = OrderStatus.pending
    · rw [walkFifo] at h ⊢
      simp only [hs, ne_eq, not_true_eq_false, if_false] at h ⊢
      by_cases hz : rem - (if rem > resting.remaining then resting.remaining else rem) = 0
      · simp [hz]
      · simp only [hz, if_false, if_neg hz] at h ⊢
        exact ih _ _ h
    · rw [walkFifo] at h ⊢
      simp only [ne_eq, hs, not_false_eq_true, if_true] at h ⊢
      exact ih tq rem h

/-! ### Lemmas about the level iteration -/

/-- Conservation through the level iteration. -/
theorem matchLoop_remaining (now : Int) (accept : ℚ → Bool)
    (ps : List ℚ) (ob : OrderBook) (rem : ℚ) (taker : Order) :
    (matchLoop now accept ps ob rem taker).remaining
      = rem - ((matchLoop now accept ps ob rem taker).trades.map (fun t => t.quantity)).sum := by
  induction ps generalizing ob rem taker with
  | nil => simp [matchLoop]
  | cons p ps ih =>
    rw [matchLoop]
    cases hl : levelLookup ob.priceLevels p with
    | none => exact ih ob rem taker
    | some level =>
      by_cases ha : accept level.price
      · simp only [ha, Bool.not_true, if_false, Bool.false_eq_true]
        by_cases hf : (walkFifo now taker level.price level.totalQty rem level.orders).takerFilled
        · simp only [hf, if_true]
          exact walkFifo_remaining now taker level.price level.totalQty rem level.orders
        · simp only [Bool.not_eq_true] at hf
          simp only [hf, Bool.false_eq_true, if_false]
          rw [ih]
          rw [walkFifo_remaining now taker level.price level.totalQty rem level.orders]
          simp only [List.map_append, List.sum_append]
          ring
      · simp only [Bool.not_eq_true'] at ha
        simp [ha]

/-- An iteration that did not complete the incoming order leaves it
untouched. -/
theorem matchLoop_taker (now : Int) (accept : ℚ → Bool)
    (ps : List ℚ) (ob : OrderBook) (rem : ℚ) (taker : Order)
    (h : (matchLoop now accept ps ob rem taker).completed = false) :
    (matchLoop now accept ps ob rem taker).taker = taker := by
  induction ps generalizing ob rem taker with
  | nil => simp [matchLoop]
  | cons p ps ih =>
    rw [matchLoop] at h ⊢
    cases hl : levelLookup ob.priceLevels p with
    | none =>
      rw [hl] at h
      exact ih ob rem taker h
    | some level =>
      rw [hl] at h
      by_cases ha : accept level.price
      · simp only [ha, Bool.not_true, Bool.false_eq_true, if_false] at h ⊢
        by_cases hf : (walkFifo now taker level.price level.totalQty rem level.orders).takerFilled
        · simp [hf] at h
        · simp only [Bool.not_eq_true] at hf
          simp only [hf, Bool.false_eq_true, if_false] at h ⊢
          rw [ih _ _ _ h]
          exact walkFifo_taker now taker level.price level.totalQty rem level.orders hf
      · simp only [Bool.not_eq_true'] at ha
        simp [ha]

/-- An iteration that traded without completing the incoming order leaves
a strictly positive remaining quantity. -/
theorem matchLoop_pos (now : Int) (accept : ℚ → Bool)
    (ps : List ℚ) (ob : OrderBook) (rem : ℚ) (taker : Order)
    (hf : (matchLoop now accept ps ob rem taker).completed = false)
    (ht : (matchLoop now accept ps ob rem taker).trades ≠ []) :
    0 < (matchLoop now accept ps ob rem taker).remaining := by
  induction ps generalizing ob rem taker with
  | nil => simp [matchLoop] at ht
  | cons p ps ih =>
    rw [matchLoop] at hf ht ⊢
    cases hl : levelLookup ob.priceLevels p with
    | none =>
      rw [hl] at hf ht
      exact ih ob rem taker hf ht
    | some level =>
      rw [hl] at hf ht
      by_cases ha : accept level.price
      · simp only [ha, Bool.not_true, Bool.false_eq_true, if_false] at hf ht ⊢
        set w := walkFifo now taker level.price level.totalQty rem level.orders with hwdef
        by_cases hw : w.takerFilled
        · simp [hw] at hf
        · simp only [Bool.not_eq_true] at hw
          simp only [hw, Bool.false_eq_true, if_false] at hf ht ⊢
          set lvl2 : PriceLevel := { level with totalQty := w.totalQty, orders := w.fifo } with hl2
          set ob3 := OrderBook.processCompletedOrders
            { ob with priceLevels := setLevel ob.priceLevels p lvl2 } lvl2 with h3
          by_cases htr : (matchLoop now accept ps ob3 w.remaining w.taker).trades = []
          · rw [matchLoop_remaining, htr]
            simp only [List.map_nil, List.sum_nil, sub_zero]
            apply walkFifo_pos now taker level.price level.totalQty rem level.orders hw
            intro hwt
            rw [← hwdef] at hwt
            simp [hwt, htr] at ht
          · exact ih _ _ _ hf htr
      · simp only [Bool.not_eq_true'] at ha
        simp [ha] at ht

/-- A completed iteration zeroed both the threaded remaining quantity and
the incoming order's remaining field. -/
theorem matchLoop_completed (now : Int) (accept : ℚ → Bool)
    (ps : List ℚ) (ob : OrderBook) (rem : ℚ) (taker : Order)
    (h : (matchLoop now accept ps ob rem taker).completed = true) :
    (matchLoop now accept ps ob rem taker).remaining = 0
      ∧ (matchLoop now accept ps ob rem taker).taker.remaining = 0 := by
  induction ps generalizing ob rem taker with
  | nil => simp [matchLoop] at h
  | cons p ps ih =>
    rw [matchLoop] at h ⊢
    cases hl : levelLookup ob.priceLevels p with
    | none =>
      rw [hl] at h
      exact ih ob rem taker h
    | some level =>
      rw [hl] at h
      by_cases ha : accept level.price
      · simp only [ha, Bool.not_true, Bool.false_eq_true, if_false] at h ⊢
        by_cases hw : (walkFifo now taker level.price level.totalQty rem level.orders).takerFilled
        · simp only [hw, if_true]
          exact walkFifo_filled now taker level.price level.totalQty rem level.orders hw
        · simp only [Bool.not_eq_true] at hw
          simp only [hw, Bool.false_eq_true, if_false] at h ⊢
          exact ih _ _ _ h
      · simp only [Bool.not_eq_true'] at ha
        simp [ha] at h

/-- Unfolding `matchPhase` to the level iteration. -/
theorem matchPhase_def (ob : OrderBook) (now : Int) (o : Order) :
    ob.matchPhase now o
      = matchLoop now (isMatchFn o)
          (match o.side with | Side.buy => ob.asks | Side.sell => ob.bids.reverse)
          ob o.remaining o := rfl

/-- Conservation through the matching phase. -/
theorem matchPhase_remaining (ob : OrderBook) (now : Int) (o : Order) :
    (ob.matchPhase now o).remaining
      = o.remaining - ((ob.matchPhase now o).trades.map (fun t => t.quantity)).sum := by
  rw [matchPhase_def]
  exact matchLoop_remaining now (isMatchFn o) _ ob o.remaining o

/-- A matching phase that did not complete the incoming order leaves it
untouched. -/
theorem matchPhase_taker (ob : OrderBook) (now : Int) (o : Order)
    (h : (ob.matchPhase now o).completed = false) :
    (ob.matchPhase now o).taker = o := by
  rw [matchPhase_def] at h ⊢
  exact matchLoop_taker now (isMatchFn o) _ ob o.remaining o h

/-- A matching phase that traded without completing leaves a strictly
positive remaining quantity. -/
theorem matchPhase_pos (ob : OrderBook) (now : Int) (o : Order)
    (hf : (ob.matchPhase now o).completed = false)
    (ht : (ob.matchPhase now o).trades ≠ []) :
    0 < (ob.matchPhase now o).remaining := by
  rw [matchPhase_def] at hf ht ⊢
  exact matchLoop_pos now (isMatchFn o) _ ob o.remaining o hf ht

/-- A completed matching phase zeroed the incoming order's remaining. -/
theorem matchPhase_completed (ob : OrderBook) (now : Int) (o : Order)
    (h : (ob.matchPhase now o).completed = true) :
    (ob.matchPhase now o).remaining = 0 ∧ (ob.matchPhase now o).taker.remaining = 0 := by
  rw [matchPhase_def] at h ⊢
  exact matchLoop_completed now (isMatchFn o) _ ob o.remaining o h

/-- `matchOrder` never alters the trade list produced by the matching
phase (the residual-insert step returns them unchanged, whether or not
`AddOrder` succeeded). -/
theorem matchOrder_trades (ob : OrderBook) (now : Int) (o : Order) :
    (ob.matchOrder now o).trades = (ob.matchPhase now o).trades := by
  simp only [OrderBook.matchOrder]
  set r := ob.matchPhase now o with hr
  by_cases h : r.completed = false ∧ r.remaining > 0
  · rw [if_pos h]
    cases r.book.addOrder
        { r.taker with remaining := r.remaining, status := OrderStatus.partFilled, updateTime := now } with
    | ok ob2 => rfl
    | error e => rfl
  · rw [if_neg h]

/-- Claim C5: for every submit, the sum of the emitted trade quantities
equals the incoming order's remaining quantity before the call minus its
remaining quantity after the call. -/
theorem C5_conservation (ob : OrderBook) (now : Int) (o : Order) :
    ((ob.matchOrder now o).trades.map (fun t => t.quantity)).sum
      = o.remaining - (ob.matchOrder now o).order.remaining := by
  have hrem := matchPhase_remaining ob now o
  simp only [OrderBook.matchOrder]
  set r := ob.matchPhase now o with hr
  by_cases h : r.completed = false ∧ r.remaining > 0
  · rw [if_pos h]
    cases r.book.addOrder
        { r.taker with remaining := r.remaining, status := OrderStatus.partFilled, updateTime := now } with
    | ok ob2 =>
      simp only
      rw [hrem]
      ring
    | error e =>
      simp only
      rw [hrem]
      ring
  · rw [if_neg h]
    simp only
    by_cases hc : r.completed = true
    · have hcc := matchPhase_completed ob now o (by rw [← hr]; exact hc)
      rw [← hr] at hcc
      rw [hcc.2]
      linarith [hrem, hcc.1]
    · simp only [Bool.not_eq_true] at hc
      have hnr : ¬ r.remaining > 0 := fun hgt => h ⟨hc, hgt⟩
      by_cases htr : r.trades = []
      · have htk := matchPhase_taker ob now o (by rw [← hr]; exact hc)
        rw [← hr] at htk
        rw [htr, htk]
        simp
      · exact absurd (matchPhase_pos ob now o (by rw [← hr]; exact hc) (by rw [← hr]; exact htr))
          (by rw [← hr]; exact hnr)

/-! ### Concrete scenarios

The Go tests (`main/order.go` callers, `TestLimitOrderMatching1`,
`TestMarketOrderMatching2`) build orders with `Remaining = Quantity` and
`Status = StatusPending` and a zero price for market orders; `mkOrder`
below does the same.  `addOrderD` is a harness convenience unwrapping a
successful `AddOrder` (the theorems below only apply it where the insert
succeeds). -/

def emptyBook : OrderBook := ⟨"BTC/USDT", [], [], [], []⟩

def mkOrder (id uid : String) (side : Side) (price qty : ℚ) (mkt : Bool) : Order :=
  ⟨id, uid, "BTC/USDT", side, price, qty, qty, OrderStatus.pending, 1, 1, mkt⟩

def addOrderD (ob : OrderBook) (o : Order) : OrderBook :=
  match ob.addOrder o with
  | .ok b => b
  | .error _ => ob

def c1Book : OrderBook := addOrderD emptyBook (mkOrder "s1" "u1" Side.sell 100 (1/2) false)

def c1Market : Order := mkOrder "m1" "u9" Side.buy 0 1 true

/-- Claim C1 (code bug): a resting pending ask of 1/2 at price 100, and an
incoming market buy of quantity 1.  The matcher exhausts the ask side with
one trade of 1/2 at 100 and is left with residual 1/2; the claim (and the
spec) say the market order is discarded, but `MatchOrder` has no `IsMarket`
test on its residual path (`main/match.go` lines 41-46) and rests the
market order: it ends up in the global id map, in the bid btree at its
price 0, and in a freshly created price-0 level. -/
theorem C1_market_residual_rests :
    ((c1Book.matchOrder 3 c1Market).trades.map (fun t => (t.price, t.quantity))) = [(100, 1/2)]
    ∧ (c1Book.matchOrder 3 c1Market).order.status = OrderStatus.partFilled
    ∧ "m1" ∈ (c1Book.matchOrder 3 c1Market).book.orderMap
    ∧ (c1Book.matchOrder 3 c1Market).book.bids = [0]
    ∧ ((levelLookup (c1Book.matchOrder 3 c1Market).book.priceLevels 0).map
        (fun l => l.orders.map (fun o => o.orderID))) = some ["m1"] := by
  refine ⟨by decide, by decide, by decide, by decide, by decide⟩

def c2BookA : OrderBook := addOrderD emptyBook (mkOrder "s2" "u1" Side.sell 100 2 false)

def c2Buy1 : Order := mkOrder "b1" "u3" Side.buy 100 1 false

def c2ResA : MatchResult := c2BookA.matchOrder 3 (mkOrder "b0" "u2" Side.buy 100 1 false)

def c2ResB : MatchResult := c2ResA.book.matchOrder 4 c2Buy1

/-- Claim C2 (code bug): after `b0` partially fills the resting pending
ask `s2` (one trade of 1 at 100), `s2` rests with status `partFilled` and
remaining 1.  A second buy `b1` at the acceptable price 100 should trade
against it, but the FIFO walk skips every order whose status is not
`pending` (`main/match.go` line 75, `model/match.go` line 55, under the
comment "skip completed orders"), so no trade is emitted — and the
residual `b1` is then appended into the *ask* level at 100 through the
side-shared price map. -/
theorem C2_partFilled_skipped :
    (c2ResA.trades.map (fun t => (t.price, t.quantity, t.makerOrderID))) = [(100, 1, "s2")]
    ∧ ((levelLookup c2ResA.book.priceLevels 100).map
        (fun l => l.orders.map (fun o => (o.orderID, o.status, o.remaining))))
      = some [("s2", OrderStatus.partFilled, 1)]
    ∧ isMatchFn c2Buy1 100 = true
    ∧ c2ResB.trades = [] := by
  refine ⟨by decide, by decide, by decide, by decide⟩

def c3Buy : Order := mkOrder "b9" "u9" Side.buy 100 1 false

/-- Claim C3 (code bug): a limit buy submitted into an empty book emits no
trades and its remaining still equals its original quantity, yet
`MatchOrder` marks every rested residual `StatusPartiallyFilled`
unconditionally (`main/match.go` line 43, `model/match.go` line 120) —
the claim (and the spec) say its status should remain `pending`. -/
theorem C3_rested_as_partFilled :
    (emptyBook.matchOrder 5 c3Buy).trades = []
    ∧ (emptyBook.matchOrder 5 c3Buy).order.remaining = c3Buy.quantity
    ∧ "b9" ∈ (emptyBook.matchOrder 5 c3Buy).book.orderMap
    ∧ (emptyBook.matchOrder 5 c3Buy).order.status = OrderStatus.partFilled := by
  refine ⟨by decide, by decide, by decide, by decide⟩

/-- Claim C10: when the incoming order's id is already live in the book
after the matching phase and a positive residual remains, the resting
insert is rejected by `AddOrder` as a duplicate, but `MatchOrder` discards
that error (`main/match.go` line 45): the caller receives exactly the
matching-phase trades with no error indication (the return type carries
none), and the book is exactly the matching-phase book — the residual was
silently dropped. -/
theorem C10_duplicate_insert_discarded (ob : OrderBook) (now : Int) (o : Order)
    (hc : (ob.matchPhase now o).completed = false)
    (hr : (ob.matchPhase now o).remaining > 0)
    (hd : o.orderID ∈ (ob.matchPhase now o).book.orderMap) :
    ob.matchOrder now o
      = ⟨(ob.matchPhase now o).book,
         { (ob.matchPhase now o).taker with
           remaining := (ob.matchPhase now o).remaining
           status := OrderStatus.partFilled
           updateTime := now },
         (ob.matchPhase now o).trades⟩ := by
  have htk := matchPhase_taker ob now o hc
  simp only [OrderBook.matchOrder]
  rw [if_pos ⟨hc, hr⟩]
  have hid : ({ (ob.matchPhase now o).taker with
      remaining := (ob.matchPhase now o).remaining
      status := OrderStatus.partFilled
      updateTime := now } : Order).orderID ∈ (ob.matchPhase now o).book.orderMap := by
    show (ob.matchPhase now o).taker.orderID ∈ _
    rw [htk]
    exact hd
  rw [OrderBook.addOrder, if_pos hid]

def c10Book : OrderBook :=
  addOrderD (addOrderD emptyBook (mkOrder "s1" "u1" Side.sell 100 1 false))
    (mkOrder "dup" "u5" Side.buy 50 1 false)

def c10Incoming : Order := mkOrder "dup" "u9" Side.buy 100 2 false

/-- Witness for C10: a book holding a pending ask `s1` (1 at 100) and a
pending bid with id `dup` (at 50); an incoming buy with the same id `dup`
(2 at 100) trades 1 at 100, leaves residual 1, and its insert is silently
rejected. -/
theorem C10_duplicate_insert_discarded_witness :
    ((c10Book.matchPhase 6 c10Incoming).completed = false
      ∧ (c10Book.matchPhase 6 c10Incoming).remaining > 0
      ∧ c10Incoming.orderID ∈ (c10Book.matchPhase 6 c10Incoming).book.orderMap
      ∧ ((c10Book.matchPhase 6 c10Incoming).trades.map (fun t => (t.price, t.quantity))) = [(100, 1)])
    ∧ c10Book.matchOrder 6 c10Incoming
        = ⟨(c10Book.matchPhase 6 c10Incoming).book,
           { (c10Book.matchPhase 6 c10Incoming).taker with
             remaining := (c10Book.matchPhase 6 c10Incoming).remaining
             status := OrderStatus.partFilled
             updateTime := 6 },
           (c10Book.matchPhase 6 c10Incoming).trades⟩ :=
  ⟨⟨by decide, by decide, by decide, by decide⟩,
    C10_duplicate_insert_discarded c10Book 6 c10Incoming (by decide) (by decide) (by decide)⟩

/-! ### The fee computation (claim C8) -/

def c8Book : OrderBook := addOrderD emptyBook (mkOrder "s1" "u1" Side.sell 100 2 false)

def c8Res : MatchResult := c8Book.matchOrder 7 (mkOrder "b1" "u2" Side.buy 100 2 false)

/-- Counterexample to claim C8: the single-limit-hit scenario (resting
pending sell `s1` of 2 at 100, incoming buy of 2 at 100) emits one trade
of quantity 2 at price 100, and the fee the source computes for it —
`calculateFee` over `big.Float`, wired into the trade at
`model/match.go` line 79 — is *not* `2 * 100 * 0.001 = 0.200`: the rate
constant `big.NewFloat(0.001)` is the binary `float64` nearest `1/1000`,
not `1/1000`. -/
theorem C8_fee_not_exact_decimal :
    (c8Res.trades.map (fun t => (t.price, t.quantity))) = [(100, 2)]
    ∧ (calculateFee ⟨2, 0⟩ ⟨100, 0⟩).toRat ≠ (2 : ℚ) * 100 * (1 / 1000) := by
  refine ⟨by decide, by decide⟩

/-- Amended claim C8: the fee is computed in `big.Float` binary
floating-point arithmetic at precision 53 (round to nearest, ties to
even), with rate `big.NewFloat(0.001) = 4611686018427388 * 2 ^ (-62)` —
the 53-bit binary float nearest `1/1000`, within half an ulp of it but
not equal to it.  A match of quantity 2 at maker price 100 yields the fee
`7205759403792794 * 2 ^ (-55)` (the binary float printed as `0.2`), not
exactly `0.200`. -/
theorem C8_fee_binary_float :
    calculateFee ⟨2, 0⟩ ⟨100, 0⟩ = ⟨7205759403792794, -55⟩
    ∧ (calculateFee ⟨2, 0⟩ ⟨100, 0⟩).toRat = 7205759403792794 / 36028797018963968
    ∧ feeRate.toRat ≠ 1 / 1000
    ∧ feeRate.toRat - 1 / 1000 ≤ 1 / 9223372036854775808
    ∧ 1 / 1000 - feeRate.toRat ≤ 1 / 9223372036854775808 := by
  refine ⟨by decide, by decide, by decide, by decide, by decide⟩

/-! ### Well-formedness: tree keys name their levels -/

/-- Every entry of the price map holds a level whose `price` field equals
its key (true of every level the source ever creates). -/
def keysOk (m : List (ℚ × PriceLevel)) : Prop := ∀ e ∈ m, e.2.price = e.1

instance (m : List (ℚ × PriceLevel)) : Decidable (keysOk m) := by
  unfold keysOk
  infer_instance

/-- Unpacking a successful `levelLookup`. -/
theorem levelLookup_eq_some {m : List (ℚ × PriceLevel)} {p : ℚ} {l : PriceLevel}
    (h : levelLookup m p = some l) : ∃ e, e ∈ m ∧ e.2 = l ∧ e.1 = p := by
  unfold levelLookup at h
  cases hf : m.find? (fun e => e.1 == p) with
  | none => rw [hf] at h; simp at h
  | some e0 =>
    rw [hf] at h
    simp only [Option.map_some'] at h
    refine ⟨e0, List.mem_of_find?_eq_some hf, Option.some.inj h, ?_⟩
    have := List.find?_some hf
    simpa using this

/-- In a `keysOk` map, a looked-up level has the looked-up price. -/
theorem keysOk_lookup {m : List (ℚ × PriceLevel)} {p : ℚ} {l : PriceLevel}
    (hk : keysOk m) (h : levelLookup m p = some l) : l.price = p := by
  obtain ⟨e, hmem, h2, h1⟩ := levelLookup_eq_some h
  rw [← h2, hk e hmem, h1]

/-- Membership in a written-back map. -/
theorem mem_setLevel {m : List (ℚ × PriceLevel)} {p : ℚ} {l : PriceLevel}
    {e : ℚ × PriceLevel} (h : e ∈ setLevel m p l) :
    e.2 = l ∨ e ∈ m := by
  unfold setLevel at h
  obtain ⟨e0, he0, heq⟩ := List.mem_map.mp h
  by_cases hp : (e0.1 == p) = true
  · rw [if_pos hp] at heq
    exact Or.inl (by rw [← heq])
  · rw [if_neg hp] at heq
    exact Or.inr (heq ▸ he0)

/-- Keys are unchanged by a write-back, so `keysOk` is preserved when the
written level carries the key as its price. -/
theorem keysOk_setLevel {m : List (ℚ × PriceLevel)} {p : ℚ} {l : PriceLevel}
    (hk : keysOk m) (hl : l.price = p) : keysOk (setLevel m p l) := by
  intro e he
  unfold setLevel at he
  obtain ⟨e0, he0, heq⟩ := List.mem_map.mp he
  by_cases hp : (e0.1 == p) = true
  · rw [if_pos hp] at heq
    rw [← heq]
    have : e0.1 = p := by simpa using hp
    simp [hl, this]
  · rw [if_neg hp] at heq
    exact heq ▸ hk e0 he0

/-- `keysOk` is preserved by map deletion. -/
theorem keysOk_eraseLevel {m : List (ℚ × PriceLevel)} {p : ℚ}
    (hk : keysOk m) : keysOk (eraseLevel m p) := by
  intro e he
  exact hk e (List.mem_filter.mp he).1

/-- `keysOk` is preserved by the reaping pass. -/
theorem keysOk_processCompleted (ob : OrderBook) (level : PriceLevel)
    (hk : keysOk ob.priceLevels) :
    keysOk (ob.processCompletedOrders level).priceLevels := by
  unfold OrderBook.processCompletedOrders
  by_cases he : (level.orders.filter (fun o => !(completedOrCancelled o))).isEmpty
  · simp only [he, if_true]
    exact keysOk_eraseLevel hk
  · simp only [he, Bool.false_eq_true, if_false]
    exact keysOk_setLevel hk rfl

/-- Every trade of a FIFO walk carries the level price it was walked
with. -/
theorem walkFifo_trade_price (now : Int) (taker : Order) (price : ℚ)
    (tq rem : ℚ) (os : List Order) :
    ∀ t ∈ (walkFifo now taker price tq rem os).trades, t.price = price := by
  induction os generalizing tq rem with
  | nil => simp [walkFifo]
  | cons resting rest ih =>
    by_cases hs : resting.status = OrderStatus.pending
    · rw [walkFifo]
      simp only [hs, ne_eq, not_true_eq_false, if_false]
      by_cases hz : rem - (if rem > resting.remaining then resting.remaining else rem) = 0
      · simp [hz, mkTrade]
      · simp only [hz, if_false, if_neg hz]
        intro t ht
        rcases List.mem_cons.mp ht with h | h
        · rw [h]; rfl
        · exact ih _ _ t h
    · rw [walkFifo]
      simp only [ne_eq, hs, not_false_eq_true, if_true]
      exact ih tq rem

/-- Price ordering of the trades of a level iteration: if the visited
prices are pairwise `R`-related, the emitted trade prices are pairwise
equal-or-`R`-related, and every trade price is a visited price. -/
theorem matchLoop_pairwise (now : Int) (accept : ℚ → Bool) (R : ℚ → ℚ → Prop)
    (ps : List ℚ) (ob : OrderBook) (rem : ℚ) (taker : Order)
    (hk : keysOk ob.priceLevels) (hps : ps.Pairwise R) :
    (∀ t ∈ (matchLoop now accept ps ob rem taker).trades, t.price ∈ ps)
    ∧ (matchLoop now accept ps ob rem taker).trades.Pairwise
        (fun a b => a.price = b.price ∨ R a.price b.price) := by
  induction ps generalizing ob rem taker with
  | nil => simp [matchLoop]
  | cons p ps ih =>
    rw [matchLoop]
    cases hl : levelLookup ob.priceLevels p with
    | none =>
      obtain ⟨hmem, hpw⟩ := ih ob rem taker hk (List.Pairwise.sublist (List.sublist_cons_self p ps) hps)
      exact ⟨fun t ht => List.mem_cons_of_mem p (hmem t ht), hpw⟩
    | some level =>
      have hlp : level.price = p := keysOk_lookup hk hl
      by_cases ha : accept level.price
      · simp only [ha, Bool.not_true, Bool.false_eq_true, if_false]
        set w := walkFifo now taker level.price level.totalQty rem level.orders with hwdef
        have hwp : ∀ t ∈ w.trades, t.price = p := by
          intro t ht
          rw [← hlp]
          exact walkFifo_trade_price now taker level.price level.totalQty rem level.orders t ht
        by_cases hw : w.takerFilled
        · simp only [hw, if_true]
          constructor
          · exact fun t ht => by rw [hwp t ht]; exact List.mem_cons_self p ps
          · exact List.pairwise_of_forall_mem_list
              (fun a hat b hbt => Or.inl (by rw [hwp a hat, hwp b hbt]))
        · simp only [Bool.not_eq_true] at hw
          simp only [hw, Bool.false_eq_true, if_false]
          set lvl2 : PriceLevel := { level with totalQty := w.totalQty, orders := w.fifo } with hl2
          set ob3 := OrderBook.processCompletedOrders
            { ob with priceLevels := setLevel ob.priceLevels p lvl2 } lvl2 with h3
          have hk3 : keysOk ob3.priceLevels := by
            rw [h3]
            apply keysOk_processCompleted
            exact keysOk_setLevel hk (by rw [hl2, hlp])
          obtain ⟨hmem, hpw⟩ := ih ob3 w.remaining w.taker hk3
            (List.Pairwise.sublist (List.sublist_cons_self p ps) hps)
          constructor
          · intro t ht
            simp only [List.mem_append] at ht
            rcases ht with h | h
            · rw [hwp t h]; exact List.mem_cons_self p ps
            · exact List.mem_cons_of_mem p (hmem t h)
          · rw [List.pairwise_append]
            refine ⟨List.pairwise_of_forall_mem_list
              (fun a hat b hbt => Or.inl (by rw [hwp a hat, hwp b hbt])), hpw, ?_⟩
            intro a hat b hbt
            right
            rw [hwp a hat]
            have hb := hmem b hbt
            exact (List.rel_of_pairwise_cons hps) hb
      · simp only [Bool.not_eq_true'] at ha
        simp [ha]

/-- Claim C4: submit of a limit BUY emits trades at non-decreasing
prices; submit of a limit SELL at non-increasing prices (best-first
consumption: a buy walks the ask tree ascending, a sell walks the bid
tree descending). -/
theorem C4_best_price_first (ob : OrderBook) (now : Int) (o : Order)
    (hk : keysOk ob.priceLevels)
    (ha : ob.asks.Pairwise (fun a b => a < b))
    (hb : ob.bids.Pairwise (fun a b => a < b))
    (_hm : o.isMarket = false) :
    (o.side = Side.buy →
      (ob.matchOrder now o).trades.Pairwise (fun a b => a.price ≤ b.price))
    ∧ (o.side = Side.sell →
      (ob.matchOrder now o).trades.Pairwise (fun a b => b.price ≤ a.price)) := by
  constructor
  · intro hside
    rw [matchOrder_trades, matchPhase_def, hside]
    have hpw := (matchLoop_pairwise now (isMatchFn o) (fun a b => a < b)
      ob.asks ob o.remaining o hk ha).2
    exact hpw.imp (fun hab => hab.elim le_of_eq le_of_lt)
  · intro hside
    rw [matchOrder_trades, matchPhase_def, hside]
    have hrev : (ob.bids.reverse).Pairwise (fun a b => b < a) :=
      List.pairwise_reverse.mpr hb
    have hpw := (matchLoop_pairwise now (isMatchFn o) (fun a b => b < a)
      ob.bids.reverse ob o.remaining o hk hrev).2
    exact hpw.imp (fun hab => hab.elim (fun h => le_of_eq h.symm) le_of_lt)

def c4Book : OrderBook :=
  addOrderD (addOrderD emptyBook (mkOrder "s1" "u1" Side.sell 99 1 false))
    (mkOrder "s2" "u2" Side.sell 100 2 false)

def c4Buy : Order := mkOrder "b1" "u3" Side.buy 100 2 false

/-- Witness for C4: pending asks of 1 at 99 and 2 at 100; a limit buy of
2 at 100 trades at 99 then at 100, non-decreasing. -/
theorem C4_best_price_first_witness :
    (keysOk c4Book.priceLevels
      ∧ c4Book.asks.Pairwise (fun a b => a < b)
      ∧ c4Book.bids.Pairwise (fun a b => a < b)
      ∧ c4Buy.isMarket = false ∧ c4Buy.side = Side.buy)
    ∧ (c4Book.matchOrder 7 c4Buy).trades.Pairwise (fun a b => a.price ≤ b.price) :=
  ⟨⟨by decide, by decide, by decide, by decide, by decide⟩,
    (C4_best_price_first c4Book 7 c4Buy (by decide) (by decide) (by decide) (by decide)).1 rfl⟩

/-! ### Frame lemmas: a step touches only its own price -/

/-- Writing a level at `p` does not change lookups at other prices. -/
theorem levelLookup_setLevel_ne {m : List (ℚ × PriceLevel)} {p q : ℚ}
    {l : PriceLevel} (h : q ≠ p) :
    levelLookup (setLevel m p l) q = levelLookup m q := by
  induction m with
  | nil => rfl
  | cons e m ih =>
    by_cases hep : (e.1 == p) = true
    · have he1 : e.1 = p := by simpa using hep
      have heq : (e.1 == q) = false := by simp [he1]; exact fun hc => h hc.symm
      simp only [levelLookup, setLevel, List.map_cons, if_pos hep, List.find?_cons, heq]
      exact ih
    · simp only [levelLookup, setLevel, List.map_cons, if_neg hep, List.find?_cons]
      by_cases heq : (e.1 == q) = true
      · simp [heq]
      · simp only [Bool.not_eq_true] at heq
        simp only [heq]
        exact ih

/-- Deleting a level at `p` does not change lookups at other prices. -/
theorem levelLookup_eraseLevel_ne {m : List (ℚ × PriceLevel)} {p q : ℚ}
    (h : q ≠ p) : levelLookup (eraseLevel m p) q = levelLookup m q := by
  induction m with
  | nil => rfl
  | cons e m ih =>
    by_cases hep : (e.1 != p) = true
    · simp only [eraseLevel, List.filter_cons, hep, if_true, levelLookup, List.find?_cons]
      by_cases heq : (e.1 == q) = true
      · simp [heq]
      · simp only [Bool.not_eq_true] at heq
        simp only [heq]
        exact ih
    · have he1 : e.1 = p := by simpa using hep
      have heq : (e.1 == q) = false := by simp [he1]; exact fun hc => h hc.symm
      simp only [eraseLevel, List.filter_cons, hep, Bool.false_eq_true, if_false,
        levelLookup, List.find?_cons, heq]
      exact ih

/-- The reaping pass touches only the entry at the level's own price. -/
theorem levelLookup_processCompleted_ne (ob : OrderBook) (level : PriceLevel)
    {q : ℚ} (h : q ≠ level.price) :
    levelLookup (ob.processCompletedOrders level).priceLevels q
      = levelLookup ob.priceLevels q := by
  unfold OrderBook.processCompletedOrders
  by_cases he : (level.orders.filter (fun o => !(completedOrCancelled o))).isEmpty
  · simp only [he, if_true]
    exact levelLookup_eraseLevel_ne h
  · simp only [he, Bool.false_eq_true, if_false]
    exact levelLookup_setLevel_ne h

/-- A walk from a positive remaining quantity that did not fill the
incoming order keeps it positive. -/
theorem walkFifo_rem_pos (now : Int) (taker : Order) (price : ℚ)
    (tq rem : ℚ) (os : List Order) (hrem : 0 < rem)
    (hf : (walkFifo now taker price tq rem os).takerFilled = false) :
    0 < (walkFifo now taker price tq rem os).remaining := by
  by_cases ht : (walkFifo now taker price tq rem os).trades = []
  · rw [walkFifo_remaining, ht]
    simpa using hrem
  · exact walkFifo_pos now taker price tq rem os hf ht

/-- Per-trade bounds of a FIFO walk over a level whose pending orders
have positive remaining: every trade names a maker from the walked FIFO,
has positive quantity, and its quantity is at most both the maker's
remaining and the incoming remaining at the start of the walk. -/
theorem walkFifo_trade_bounds (now : Int) (taker : Order) (price : ℚ)
    (tq rem : ℚ) (os : List Order)
    (hpos : ∀ x ∈ os, x.status = OrderStatus.pending → 0 < x.remaining)
    (hrem : 0 < rem) :
    ∀ t ∈ (walkFifo now taker price tq rem os).trades,
      ∃ maker ∈ os, t.makerOrderID = maker.orderID
        ∧ 0 < t.quantity ∧ t.quantity ≤ maker.remaining ∧ t.quantity ≤ rem := by
  induction os generalizing tq rem with
  | nil => simp [walkFifo]
  | cons resting rest ih =>
    by_cases hs : resting.status = OrderStatus.pending
    · have hrp : 0 < resting.remaining := hpos resting (List.mem_cons_self _ _) hs
      have hmle : (if rem > resting.remaining then resting.remaining else rem) ≤ resting.remaining := by
        by_cases hgt : rem > resting.remaining
        · simp [hgt]
        · simp only [hgt, if_false]
          exact le_of_not_lt hgt
      have hmler : (if rem > resting.remaining then resting.remaining else rem) ≤ rem := by
        by_cases hgt : rem > resting.remaining
        · simp only [hgt, if_true]
          exact le_of_lt hgt
        · simp [hgt]
      have hmpos : 0 < (if rem > resting.remaining then resting.remaining else rem) := by
        by_cases hgt : rem > resting.remaining
        · simp [hgt, hrp]
        · simp [hgt, hrem]
      rw [walkFifo]
      simp only [hs, ne_eq, not_true_eq_false, if_false]
      by_cases hz : rem - (if rem > resting.remaining then resting.remaining else rem) = 0
      · rw [if_pos hz]
        intro t ht
        simp only [List.mem_singleton] at ht
        exact ⟨resting, List.mem_cons_self _ _, by rw [ht]; rfl,
          by rw [ht]; exact hmpos, by rw [ht]; exact hmle, by rw [ht]; exact hmler⟩
      · simp only [hz, if_false, if_neg hz]
        intro t ht
        rcases List.mem_cons.mp ht with h | h
        · exact ⟨resting, List.mem_cons_self _ _, by rw [h]; rfl,
            by rw [h]; exact hmpos, by rw [h]; exact hmle, by rw [h]; exact hmler⟩
        · have hrem2 : 0 < rem - (if rem > resting.remaining then resting.remaining else rem) := by
            by_cases hgt : rem > resting.remaining
            · simp only [hgt, if_true]
              linarith
            · exfalso
              exact hz (by simp [hgt])
          obtain ⟨maker, hmk, hid, hq, hqm, hqr⟩ :=
            ih _ _ (fun x hx => hpos x (List.mem_cons_of_mem _ hx)) hrem2 t h
          exact ⟨maker, List.mem_cons_of_mem _ hmk, hid, hq, hqm,
            le_trans hqr (by linarith)⟩
    · rw [walkFifo]
      simp only [ne_eq, hs, not_false_eq_true, if_true]
      intro t ht
      obtain ⟨maker, hmk, rest_h⟩ := ih tq rem (fun x hx => hpos x (List.mem_cons_of_mem _ hx)) hrem t ht
      exact ⟨maker, List.mem_cons_of_mem _ hmk, rest_h⟩

/-- Per-step per-trade bounds of a FIFO walk: writing the emitted trade
list as `pre ++ t :: post`, the trade `t` was produced with the incoming
remaining standing at `rem` minus the quantities already traded in `pre`,
so its quantity is at most that running remaining (and at most its
maker's resting remaining). -/
theorem walkFifo_trade_bounds_step (now : Int) (taker : Order) (price : ℚ)
    (tq rem : ℚ) (os : List Order)
    (hpos : ∀ x ∈ os, x.status = OrderStatus.pending → 0 < x.remaining)
    (hrem : 0 < rem) :
    ∀ pre t post, (walkFifo now taker price tq rem os).trades = pre ++ t :: post →
      ∃ maker ∈ os, t.makerOrderID = maker.orderID
        ∧ 0 < t.quantity ∧ t.quantity ≤ maker.remaining
        ∧ t.quantity ≤ rem - (pre.map (fun x => x.quantity)).sum := by
  induction os generalizing tq rem with
  | nil =>
    intro pre t post h
    exact absurd (List.append_eq_nil.mp h.symm).2 (List.cons_ne_nil t post)
  | cons resting rest ih =>
    by_cases hs : resting.status = OrderStatus.pending
    · have hrp : 0 < resting.remaining := hpos resting (List.mem_cons_self _ _) hs
      have hmle : (if rem > resting.remaining then resting.remaining else rem) ≤ resting.remaining := by
        by_cases hgt : rem > resting.remaining
        · simp [hgt]
        · simp only [hgt, if_false]
          exact le_of_not_lt hgt
      have hmler : (if rem > resting.remaining then resting.remaining else rem) ≤ rem := by
        by_cases hgt : rem > resting.remaining
        · simp only [hgt, if_true]
          exact le_of_lt hgt
        · simp [hgt]
      have hmpos : 0 < (if rem > resting.remaining then resting.remaining else rem) := by
        by_cases hgt : rem > resting.remaining
        · simp [hgt, hrp]
        · simp [hgt, hrem]
      rw [walkFifo]
      simp only [hs, ne_eq, not_true_eq_false, if_false]
      by_cases hz : rem - (if rem > resting.remaining then resting.remaining else rem) = 0
      · rw [if_pos hz]
        intro pre t post h
        cases pre with
        | nil =>
          rw [List.nil_append] at h
          injection h with h1 h2
          refine ⟨resting, List.mem_cons_self _ _, ?_, ?_, ?_, ?_⟩
          · rw [← h1]; rfl
          · rw [← h1]; exact hmpos
          · rw [← h1]; exact hmle
          · simp only [List.map_nil, List.sum_nil, sub_zero]
            rw [← h1]
            exact hmler
        | cons x pre2 =>
          rw [List.cons_append] at h
          injection h with h1 h2
          exact absurd (List.append_eq_nil.mp h2.symm).2 (List.cons_ne_nil t post)
      · simp only [hz, if_false, if_neg hz]
        intro pre t post h
        have hrem2 : 0 < rem - (if rem > resting.remaining then resting.remaining else rem) := by
          by_cases hgt : rem > resting.remaining
          · simp only [hgt, if_true]
            linarith
          · exfalso
            exact hz (by simp [hgt])
        cases pre with
        | nil =>
          rw [List.nil_append] at h
          injection h with h1 h2
          refine ⟨resting, List.mem_cons_self _ _, ?_, ?_, ?_, ?_⟩
          · rw [← h1]; rfl
          · rw [← h1]; exact hmpos
          · rw [← h1]; exact hmle
          · simp only [List.map_nil, List.sum_nil, sub_zero]
            rw [← h1]
            exact hmler
        | cons x pre2 =>
          rw [List.cons_append] at h
          injection h with h1 h2
          obtain ⟨maker, hmk, hid, hq, hqm, hqs⟩ :=
            ih _ _ (fun y hy => hpos y (List.mem_cons_of_mem _ hy)) hrem2 pre2 t post h2
          refine ⟨maker, List.mem_cons_of_mem _ hmk, hid, hq, hqm, ?_⟩
          have hx1 : x.quantity = (if rem > resting.remaining then resting.remaining else rem) := by
            rw [← h1]; rfl
          simp only [List.map_cons, List.sum_cons, hx1]
          linarith
    · rw [walkFifo]
      simp only [ne_eq, hs, not_false_eq_true, if_true]
      intro pre t post h
      obtain ⟨maker, hmk, hrest⟩ :=
        ih tq rem (fun y hy => hpos y (List.mem_cons_of_mem _ hy)) hrem pre t post h
      exact ⟨maker, List.mem_cons_of_mem _ hmk, hrest⟩

/-- Per-trade bounds of the level iteration, phrased against the book
`ob0` as it stood before matching (the frame hypothesis says the levels at
the still-unvisited prices agree with `ob0`). -/
theorem matchLoop_trade_bounds (now : Int) (accept : ℚ → Bool)
    (ps : List ℚ) (ob ob0 : OrderBook) (rem : ℚ) (taker : Order)
    (hk : keysOk ob0.priceLevels)
    (hpd : ps.Pairwise (fun a b => a ≠ b))
    (hframe : ∀ p ∈ ps, levelLookup ob.priceLevels p = levelLookup ob0.priceLevels p)
    (hpos : ∀ e ∈ ob0.priceLevels, ∀ x ∈ e.2.orders,
      x.status = OrderStatus.pending → 0 < x.remaining)
    (hrem : 0 < rem) :
    ∀ t ∈ (matchLoop now accept ps ob rem taker).trades,
      ∃ e ∈ ob0.priceLevels, ∃ maker ∈ e.2.orders,
        t.makerOrderID = maker.orderID ∧ t.price = e.2.price
        ∧ 0 < t.quantity ∧ t.quantity ≤ maker.remaining ∧ t.quantity ≤ rem := by
  induction ps generalizing ob rem taker with
  | nil => simp [matchLoop]
  | cons p ps ih =>
    rw [matchLoop]
    cases hl : levelLookup ob.priceLevels p with
    | none =>
      exact ih ob rem taker
        (List.Pairwise.sublist (List.sublist_cons_self p ps) hpd)
        (fun q hq => hframe q (List.mem_cons_of_mem p hq)) hrem
    | some level =>
      have hl0 : levelLookup ob0.priceLevels p = some level := by
        rw [← hframe p (List.mem_cons_self p ps)]
        exact hl
      obtain ⟨e, he, he2, he1⟩ := levelLookup_eq_some hl0
      have hlp : level.price = p := keysOk_lookup hk hl0
      have hposlv : ∀ x ∈ level.orders, x.status = OrderStatus.pending → 0 < x.remaining := by
        intro x hx
        exact hpos e he x (by rw [he2]; exact hx)
      by_cases ha : accept level.price
      · simp only [ha, Bool.not_true, Bool.false_eq_true, if_false]
        set w := walkFifo now taker level.price level.totalQty rem level.orders with hwdef
        have hwbounds := walkFifo_trade_bounds now taker level.price level.totalQty rem
          level.orders hposlv hrem
        have hwprice := walkFifo_trade_price now taker level.price level.totalQty rem level.orders
        have hleft : ∀ t ∈ w.trades,
            ∃ e2 ∈ ob0.priceLevels, ∃ maker ∈ e2.2.orders,
              t.makerOrderID = maker.orderID ∧ t.price = e2.2.price
              ∧ 0 < t.quantity ∧ t.quantity ≤ maker.remaining ∧ t.quantity ≤ rem := by
          intro t ht
          obtain ⟨maker, hmk, hid, hq, hqm, hqr⟩ := hwbounds t ht
          exact ⟨e, he, maker, by rw [he2]; exact hmk, hid,
            by rw [hwprice t ht, he2], hq, hqm, hqr⟩
        by_cases hw : w.takerFilled
        · simp only [hw, if_true]
          exact hleft
        · simp only [Bool.not_eq_true] at hw
          simp only [hw, Bool.false_eq_true, if_false]
          set lvl2 : PriceLevel := { level with totalQty := w.totalQty, orders := w.fifo } with hlvl2
          set ob3 := OrderBook.processCompletedOrders
            { ob with priceLevels := setLevel ob.priceLevels p lvl2 } lvl2 with h3
          have hwr : 0 < w.remaining := walkFifo_rem_pos now taker level.price level.totalQty
            rem level.orders hrem hw
          have hwrle : w.remaining ≤ rem := by
            rw [hwdef, walkFifo_remaining]
            have hnn : 0 ≤ ((walkFifo now taker level.price level.totalQty rem
                level.orders).trades.map (fun t => t.quantity)).sum := by
              apply List.sum_nonneg
              intro x hx
              obtain ⟨t, htm, hteq⟩ := List.mem_map.mp hx
              obtain ⟨_, _, _, _, hq, _⟩ := hwbounds t htm
              rw [← hteq]
              linarith
            linarith
          have hframe3 : ∀ q ∈ ps, levelLookup ob3.priceLevels q = levelLookup ob0.priceLevels q := by
            intro q hq
            have hqp : q ≠ p := (List.rel_of_pairwise_cons hpd hq).symm
            rw [h3]
            rw [levelLookup_processCompleted_ne _ _ (by show q ≠ lvl2.price; rw [hlvl2]; simpa [hlp] using hqp)]
            show levelLookup (setLevel ob.priceLevels p lvl2) q = _
            rw [levelLookup_setLevel_ne hqp]
            exact hframe q (List.mem_cons_of_mem p hq)
          intro t ht
          simp only [List.mem_append] at ht
          rcases ht with h | h
          · exact hleft t h
          · obtain ⟨e2, he2m, maker, hmk, hid, hpr, hq, hqm, hqr⟩ :=
              ih ob3 w.remaining w.taker
                (List.Pairwise.sublist (List.sublist_cons_self p ps) hpd)
                hframe3 hwr t h
            exact ⟨e2, he2m, maker, hmk, hid, hpr, hq, hqm, le_trans hqr hwrle⟩
      · simp only [Bool.not_eq_true'] at ha
        simp [ha]

/-- Per-step per-trade bounds of the level iteration, against the book
`ob0` as it stood before matching: writing the emitted trade list as
`pre ++ t :: post`, the quantity of `t` is at most `rem` minus the
quantities already traded in `pre` — the incoming order's remaining
immediately before the step that emitted `t`. -/
theorem matchLoop_trade_bounds_step (now : Int) (accept : ℚ → Bool)
    (ps : List ℚ) (ob ob0 : OrderBook) (rem : ℚ) (taker : Order)
    (hk : keysOk ob0.priceLevels)
    (hpd : ps.Pairwise (fun a b => a ≠ b))
    (hframe : ∀ p ∈ ps, levelLookup ob.priceLevels p = levelLookup ob0.priceLevels p)
    (hpos : ∀ e ∈ ob0.priceLevels, ∀ x ∈ e.2.orders,
      x.status = OrderStatus.pending → 0 < x.remaining)
    (hrem : 0 < rem) :
    ∀ pre t post, (matchLoop now accept ps ob rem taker).trades = pre ++ t :: post →
      ∃ e ∈ ob0.priceLevels, ∃ maker ∈ e.2.orders,
        t.makerOrderID = maker.orderID ∧ t.price = e.2.price
        ∧ 0 < t.quantity ∧ t.quantity ≤ maker.remaining
        ∧ t.quantity ≤ rem - (pre.map (fun x => x.quantity)).sum := by
  induction ps generalizing ob rem taker with
  | nil =>
    intro pre t post h
    exact absurd (List.append_eq_nil.mp h.symm).2 (List.cons_ne_nil t post)
  | cons p ps ih =>
    rw [matchLoop]
    cases hl : levelLookup ob.priceLevels p with
    | none =>
      exact ih ob rem taker
        (List.Pairwise.sublist (List.sublist_cons_self p ps) hpd)
        (fun q hq => hframe q (List.mem_cons_of_mem p hq)) hrem
    | some level =>
      have hl0 : levelLookup ob0.priceLevels p = some level := by
        rw [← hframe p (List.mem_cons_self p ps)]
        exact hl
      obtain ⟨e, he, he2, he1⟩ := levelLookup_eq_some hl0
      have hlp : level.price = p := keysOk_lookup hk hl0
      have hposlv : ∀ x ∈ level.orders, x.status = OrderStatus.pending → 0 < x.remaining := by
        intro x hx
        exact hpos e he x (by rw [he2]; exact hx)
      by_cases ha : accept level.price
      · simp only [ha, Bool.not_true, Bool.false_eq_true, if_false]
        set w := walkFifo now taker level.price level.totalQty rem level.orders with hwdef
        have hwstep := walkFifo_trade_bounds_step now taker level.price level.totalQty rem
          level.orders hposlv hrem
        have hwprice := walkFifo_trade_price now taker level.price level.totalQty rem level.orders
        have hleftstep : ∀ pre t post, w.trades = pre ++ t :: post →
            ∃ e2 ∈ ob0.priceLevels, ∃ maker ∈ e2.2.orders,
              t.makerOrderID = maker.orderID ∧ t.price = e2.2.price
              ∧ 0 < t.quantity ∧ t.quantity ≤ maker.remaining
              ∧ t.quantity ≤ rem - (pre.map (fun x => x.quantity)).sum := by
          intro pre t post h
          have htmem : t ∈ w.trades := by
            rw [h]
            exact List.mem_append.mpr (Or.inr (List.mem_cons_self t post))
          obtain ⟨maker, hmk, hid, hq, hqm, hqs⟩ := hwstep pre t post h
          exact ⟨e, he, maker, by rw [he2]; exact hmk, hid,
            by rw [hwprice t htmem, he2], hq, hqm, hqs⟩
        by_cases hw : w.takerFilled
        · simp only [hw, if_true]
          exact hleftstep
        · simp only [Bool.not_eq_true] at hw
          simp only [hw, Bool.false_eq_true, if_false]
          set lvl2 : PriceLevel := { level with totalQty := w.totalQty, orders := w.fifo } with hlvl2
          set ob3 := OrderBook.processCompletedOrders
            { ob with priceLevels := setLevel ob.priceLevels p lvl2 } lvl2 with h3
          have hwr : 0 < w.remaining := walkFifo_rem_pos now taker level.price level.totalQty
            rem level.orders hrem hw
          have hwrem : w.remaining = rem - (w.trades.map (fun t => t.quantity)).sum :=
            walkFifo_remaining now taker level.price level.totalQty rem level.orders
          have hframe3 : ∀ q ∈ ps, levelLookup ob3.priceLevels q = levelLookup ob0.priceLevels q := by
            intro q hq
            have hqp : q ≠ p := (List.rel_of_pairwise_cons hpd hq).symm
            rw [h3]
            rw [levelLookup_processCompleted_ne _ _ (by show q ≠ lvl2.price; rw [hlvl2]; simpa [hlp] using hqp)]
            show levelLookup (setLevel ob.priceLevels p lvl2) q = _
            rw [levelLookup_setLevel_ne hqp]
            exact hframe q (List.mem_cons_of_mem p hq)
          intro pre t post h
          rcases List.append_eq_append_iff.mp h with ⟨a2, hpre, hr⟩ | ⟨c2, hwt, hd⟩
          · obtain ⟨e2, he2m, maker, hmk, hid, hpr2, hq, hqm, hqs⟩ :=
              ih ob3 w.remaining w.taker
                (List.Pairwise.sublist (List.sublist_cons_self p ps) hpd)
                hframe3 hwr a2 t post hr
            refine ⟨e2, he2m, maker, hmk, hid, hpr2, hq, hqm, ?_⟩
            rw [hpre]
            simp only [List.map_append, List.sum_append]
            linarith
          · cases c2 with
            | nil =>
              rw [List.nil_append] at hd
              obtain ⟨e2, he2m, maker, hmk, hid, hpr2, hq, hqm, hqs⟩ :=
                ih ob3 w.remaining w.taker
                  (List.Pairwise.sublist (List.sublist_cons_self p ps) hpd)
                  hframe3 hwr [] t post (by rw [List.nil_append]; exact hd.symm)
              refine ⟨e2, he2m, maker, hmk, hid, hpr2, hq, hqm, ?_⟩
              simp only [List.map_nil, List.sum_nil, sub_zero] at hqs
              rw [List.append_nil] at hwt
              rw [← hwt]
              linarith
            | cons y c3 =>
              rw [List.cons_append] at hd
              injection hd with hd1 hd2
              rw [← hd1] at hwt
              exact hleftstep pre t c3 hwt
      · have ha2 : accept level.price = false := by
          simpa using ha
        simp only [ha2, Bool.not_false, if_true]
        intro pre t post h
        exact absurd (List.append_eq_nil.mp h.symm).2 (List.cons_ne_nil t post)

/-- Claim C6: every trade emitted by a submit over a well-formed book
(tree keys name their levels, side indices strictly sorted, pending
orders have positive remaining) has the price of the maker's resting
level — never the taker's limit price — and a positive quantity bounded
by the maker's resting remaining and by the taker's remaining immediately
before the match step that emitted it: writing the emitted trade list as
`pre ++ t :: post`, the taker's remaining just before the step producing
`t` is the call-entry remaining less the quantities already traded in
`pre` (conservation), and the bound against the call-entry remaining
itself follows.  Each maker is matched at most once per call, so its
listed remaining is its remaining immediately before its match step. -/
theorem C6_trade_price_quantity (ob : OrderBook) (now : Int) (o : Order)
    (hk : keysOk ob.priceLevels)
    (ha : ob.asks.Pairwise (fun a b => a < b))
    (hb : ob.bids.Pairwise (fun a b => a < b))
    (hpos : ∀ e ∈ ob.priceLevels, ∀ x ∈ e.2.orders,
      x.status = OrderStatus.pending → 0 < x.remaining)
    (hrem : 0 < o.remaining) :
    ∀ pre t post, (ob.matchOrder now o).trades = pre ++ t :: post →
      ∃ e ∈ ob.priceLevels, ∃ maker ∈ e.2.orders,
        t.makerOrderID = maker.orderID ∧ t.price = e.2.price
        ∧ 0 < t.quantity ∧ t.quantity ≤ maker.remaining
        ∧ t.quantity ≤ o.remaining - (pre.map (fun x => x.quantity)).sum
        ∧ t.quantity ≤ o.remaining := by
  intro pre t post ht
  rw [matchOrder_trades, matchPhase_def] at ht
  cases hside : o.side with
  | buy =>
    rw [hside] at ht
    obtain ⟨e, he, maker, hmk, hid, hpr, hq, hqm, hqs⟩ :=
      matchLoop_trade_bounds_step now (isMatchFn o) ob.asks ob ob o.remaining o hk
        (ha.imp ne_of_lt) (fun _ _ => rfl) hpos hrem pre t post ht
    have hall := matchLoop_trade_bounds now (isMatchFn o) ob.asks ob ob o.remaining o hk
      (ha.imp ne_of_lt) (fun _ _ => rfl) hpos hrem
    have hnn : 0 ≤ (pre.map (fun x => x.quantity)).sum := by
      apply List.sum_nonneg
      intro q hq2
      obtain ⟨x, hxm, hxe⟩ := List.mem_map.mp hq2
      have hxtr : x ∈ (matchLoop now (isMatchFn o) ob.asks ob o.remaining o).trades := by
        rw [ht]
        exact List.mem_append.mpr (Or.inl hxm)
      obtain ⟨_, _, _, _, _, _, hxq, _, _⟩ := hall x hxtr
      rw [← hxe]
      linarith
    exact ⟨e, he, maker, hmk, hid, hpr, hq, hqm, hqs, by linarith⟩
  | sell =>
    rw [hside] at ht
    obtain ⟨e, he, maker, hmk, hid, hpr, hq, hqm, hqs⟩ :=
      matchLoop_trade_bounds_step now (isMatchFn o) ob.bids.reverse ob ob o.remaining o hk
        ((List.pairwise_reverse.mpr hb).imp ne_of_gt) (fun _ _ => rfl) hpos hrem pre t post ht
    have hall := matchLoop_trade_bounds now (isMatchFn o) ob.bids.reverse ob ob o.remaining o hk
      ((List.pairwise_reverse.mpr hb).imp ne_of_gt) (fun _ _ => rfl) hpos hrem
    have hnn : 0 ≤ (pre.map (fun x => x.quantity)).sum := by
      apply List.sum_nonneg
      intro q hq2
      obtain ⟨x, hxm, hxe⟩ := List.mem_map.mp hq2
      have hxtr : x ∈ (matchLoop now (isMatchFn o) ob.bids.reverse ob o.remaining o).trades := by
        rw [ht]
        exact List.mem_append.mpr (Or.inl hxm)
      obtain ⟨_, _, _, _, _, _, hxq, _, _⟩ := hall x hxtr
      rw [← hxe]
      linarith
    exact ⟨e, he, maker, hmk, hid, hpr, hq, hqm, hqs, by linarith⟩

/-- Witness for C6, on the C4 book (pending asks of 1 at 99 and 2 at
100, incoming buy of 2 at 100: the first trade is bounded by the entry
remaining 2, the second by the running remaining 1). -/
theorem C6_trade_price_quantity_witness :
    (keysOk c4Book.priceLevels
      ∧ c4Book.asks.Pairwise (fun a b => a < b)
      ∧ c4Book.bids.Pairwise (fun a b => a < b)
      ∧ (∀ e ∈ c4Book.priceLevels, ∀ x ∈ e.2.orders,
          x.status = OrderStatus.pending → 0 < x.remaining)
      ∧ 0 < c4Buy.remaining)
    ∧ (∀ pre t post, (c4Book.matchOrder 7 c4Buy).trades = pre ++ t :: post →
        ∃ e ∈ c4Book.priceLevels, ∃ maker ∈ e.2.orders,
          t.makerOrderID = maker.orderID ∧ t.price = e.2.price
          ∧ 0 < t.quantity ∧ t.quantity ≤ maker.remaining
          ∧ t.quantity ≤ c4Buy.remaining - (pre.map (fun x => x.quantity)).sum
          ∧ t.quantity ≤ c4Buy.remaining) :=
  ⟨⟨by decide, by decide, by decide, by decide, by decide⟩,
    C6_trade_price_quantity c4Book 7 c4Buy (by decide) (by decide) (by decide)
      (by decide) (by decide)⟩

/-! ### The aggregate-quantity invariant (claim C9) -/

/-- P1 for one level: the aggregate equals the sum of the members'
remaining quantities. -/
def LevelInv (l : PriceLevel) : Prop :=
  l.totalQty = (l.orders.map (fun o => o.remaining)).sum

instance (l : PriceLevel) : Decidable (LevelInv l) := by
  unfold LevelInv
  infer_instance

/-- P1 for the whole book. -/
def BookInv (ob : OrderBook) : Prop := ∀ e ∈ ob.priceLevels, LevelInv e.2

instance (ob : OrderBook) : Decidable (BookInv ob) := by
  unfold BookInv
  infer_instance

/-- No level FIFO holds a cancelled order (`CancelOrder` removes the
order from its level in the same critical section that cancels it). -/
def noCancelled (ob : OrderBook) : Prop :=
  ∀ e ∈ ob.priceLevels, ∀ x ∈ e.2.orders, x.status ≠ OrderStatus.cancelled

instance (ob : OrderBook) : Decidable (noCancelled ob) := by
  unfold noCancelled
  infer_instance

/-- A filled order resting in a FIFO has zero remaining (the matcher
marks `filled` exactly when it zeroes the remaining). -/
def filledZero (ob : OrderBook) : Prop :=
  ∀ e ∈ ob.priceLevels, ∀ x ∈ e.2.orders, x.status = OrderStatus.filled → x.remaining = 0

instance (ob : OrderBook) : Decidable (filledZero ob) := by
  unfold filledZero
  infer_instance

/-- All orders resting in the book, in map order. -/
def allOrders (ob : OrderBook) : List Order :=
  (ob.priceLevels.map (fun e => e.2.orders)).flatten

/-- Global uniqueness of live order ids (spec P2 / section 6). -/
def idsNodup (ob : OrderBook) : Prop :=
  ((allOrders ob).map (fun o => o.orderID)).Nodup

instance (ob : OrderBook) : Decidable (idsNodup ob) := by
  unfold idsNodup
  infer_instance

/-- The walk moves the level aggregate and the FIFO remaining sum in
lockstep. -/
theorem walkFifo_inv (now : Int) (taker : Order) (price : ℚ)
    (tq rem : ℚ) (os : List Order) :
    (walkFifo now taker price tq rem os).totalQty
        - (((walkFifo now taker price tq rem os).fifo).map (fun o => o.remaining)).sum
      = tq - (os.map (fun o => o.remaining)).sum := by
  induction os generalizing tq rem with
  | nil => simp [walkFifo]
  | cons resting rest ih =>
    by_cases hs : resting.status = OrderStatus.pending
    · rw [walkFifo]
      simp only [hs, ne_eq, not_true_eq_false, if_false]
      by_cases hz : rem - (if rem > resting.remaining then resting.remaining else rem) = 0
      · rw [if_pos hz]
        simp only [List.map_cons, List.sum_cons]
        ring
      · rw [if_neg hz]
        simp only [List.map_cons, List.sum_cons]
        have := ih (tq - if rem > resting.remaining then resting.remaining else rem)
          (rem - if rem > resting.remaining then resting.remaining else rem)
        linarith
    · rw [walkFifo]
      simp only [ne_eq, hs, not_false_eq_true, if_true]
      simp only [List.map_cons, List.sum_cons]
      have := ih tq rem
      linarith

/-- Order-wise properties preserved by the walk's status updates. -/
theorem walkFifo_fifo_pres (now : Int) (taker : Order) (price : ℚ)
    (tq rem : ℚ) (os : List Order) (P : Order → Prop)
    (hP : ∀ x matchQty, P x →
      P { x with
          remaining := x.remaining - matchQty
          status := if x.remaining - matchQty = 0 then OrderStatus.filled
            else OrderStatus.partFilled
          updateTime := now })
    (hos : ∀ x ∈ os, P x) :
    ∀ x ∈ (walkFifo now taker price tq rem os).fifo, P x := by
  induction os generalizing tq rem with
  | nil => simp [walkFifo]
  | cons resting rest ih =>
    by_cases hs : resting.status = OrderStatus.pending
    · rw [walkFifo]
      simp only [hs, ne_eq, not_true_eq_false, if_false]
      by_cases hz : rem - (if rem > resting.remaining then resting.remaining else rem) = 0
      · rw [if_pos hz]
        intro x hx
        rcases List.mem_cons.mp hx with h | h
        · rw [h]
          exact hP resting _ (hos resting (List.mem_cons_self _ _))
        · exact hos x (List.mem_cons_of_mem _ h)
      · rw [if_neg hz]
        intro x hx
        rcases List.mem_cons.mp hx with h | h
        · rw [h]
          exact hP resting _ (hos resting (List.mem_cons_self _ _))
        · exact ih _ _ (fun y hy => hos y (List.mem_cons_of_mem _ hy)) x h
    · rw [walkFifo]
      simp only [ne_eq, hs, not_false_eq_true, if_true]
      intro x hx
      rcases List.mem_cons.mp hx with h | h
      · rw [h]
        exact hos resting (List.mem_cons_self _ _)
      · exact ih tq rem (fun y hy => hos y (List.mem_cons_of_mem _ hy)) x h

/-- Reaping keeps the remaining sum when every reaped order has zero
remaining. -/
theorem sum_filter_not_completed {l : List Order}
    (h : ∀ x ∈ l, completedOrCancelled x = true → x.remaining = 0) :
    ((l.filter (fun o => !(completedOrCancelled o))).map (fun o => o.remaining)).sum
      = (l.map (fun o => o.remaining)).sum := by
  induction l with
  | nil => rfl
  | cons x rest ih =>
    by_cases hc : completedOrCancelled x = true
    · simp only [List.filter_cons, hc, Bool.not_true, Bool.false_eq_true, if_false,
        List.map_cons, List.sum_cons]
      rw [h x (List.mem_cons_self _ _) hc]
      rw [ih (fun y hy => h y (List.mem_cons_of_mem _ hy))]
      ring
    · simp only [List.filter_cons, hc]
      simp only [Bool.not_eq_true] at hc
      simp only [hc, Bool.not_false, if_true, List.map_cons, List.sum_cons]
      rw [ih (fun y hy => h y (List.mem_cons_of_mem _ hy))]

/-- Per-level properties transported through a write-back. -/
theorem setLevel_pres {m : List (ℚ × PriceLevel)} {p : ℚ} {l : PriceLevel}
    (P : PriceLevel → Prop) (hm : ∀ e ∈ m, P e.2) (hl : P l) :
    ∀ e ∈ setLevel m p l, P e.2 := by
  intro e he
  rcases mem_setLevel he with h | h
  · rw [h]; exact hl
  · exact hm e h

/-- Per-level properties transported through the reaping pass. -/
theorem processCompleted_pres (ob : OrderBook) (level : PriceLevel)
    (P : PriceLevel → Prop) (hob : ∀ e ∈ ob.priceLevels, P e.2)
    (hnew : P { level with orders := level.orders.filter (fun o => !(completedOrCancelled o)) }) :
    ∀ e ∈ (ob.processCompletedOrders level).priceLevels, P e.2 := by
  unfold OrderBook.processCompletedOrders
  by_cases he : (level.orders.filter (fun o => !(completedOrCancelled o))).isEmpty
  · simp only [he, if_true]
    intro e hee
    exact hob e (List.mem_filter.mp hee).1
  · simp only [he, Bool.false_eq_true, if_false]
    exact setLevel_pres P hob hnew

/-- The level iteration preserves the aggregate invariant together with
the status facts it relies on. -/
theorem matchLoop_inv (now : Int) (accept : ℚ → Bool)
    (ps : List ℚ) (ob : OrderBook) (rem : ℚ) (taker : Order)
    (h1 : BookInv ob) (h2 : noCancelled ob) (h3 : filledZero ob) :
    BookInv (matchLoop now accept ps ob rem taker).book
    ∧ noCancelled (matchLoop now accept ps ob rem taker).book
    ∧ filledZero (matchLoop now accept ps ob rem taker).book := by
  induction ps generalizing ob rem taker with
  | nil => exact ⟨h1, h2, h3⟩
  | cons p ps ih =>
    rw [matchLoop]
    cases hl : levelLookup ob.priceLevels p with
    | none => exact ih ob rem taker h1 h2 h3
    | some level =>
      obtain ⟨e, he, he2, he1⟩ := levelLookup_eq_some hl
      have hlvlInv : LevelInv level := he2 ▸ h1 e he
      have hlvlNC : ∀ x ∈ level.orders, x.status ≠ OrderStatus.cancelled := by
        intro x hx
        exact h2 e he x (by rw [he2]; exact hx)
      have hlvlFZ : ∀ x ∈ level.orders, x.status = OrderStatus.filled → x.remaining = 0 := by
        intro x hx
        exact h3 e he x (by rw [he2]; exact hx)
      by_cases ha : accept level.price
      · simp only [ha, Bool.not_true, Bool.false_eq_true, if_false]
        set w := walkFifo now taker level.price level.totalQty rem level.orders with hwdef
        have hwNC : ∀ x ∈ w.fifo, x.status ≠ OrderStatus.cancelled := by
          apply walkFifo_fifo_pres now taker level.price level.totalQty rem level.orders
            (fun x => x.status ≠ OrderStatus.cancelled) _ hlvlNC
          intro x matchQty _
          by_cases hzz : x.remaining - matchQty = 0
          · simp [hzz]
          · simp [hzz]
        have hwFZ : ∀ x ∈ w.fifo, x.status = OrderStatus.filled → x.remaining = 0 := by
          apply walkFifo_fifo_pres now taker level.price level.totalQty rem level.orders
            (fun x => x.status = OrderStatus.filled → x.remaining = 0) _ hlvlFZ
          intro x matchQty _
          by_cases hzz : x.remaining - matchQty = 0
          · simp [hzz]
          · simp [hzz]
        have hwInv : LevelInv { level with totalQty := w.totalQty, orders := w.fifo } := by
          unfold LevelInv at hlvlInv ⊢
          have := walkFifo_inv now taker level.price level.totalQty rem level.orders
          rw [← hwdef] at this
          simp only at this ⊢
          linarith
        set lvl2 : PriceLevel := { level with totalQty := w.totalQty, orders := w.fifo } with hlvl2
        set ob2 : OrderBook := { ob with priceLevels := setLevel ob.priceLevels p lvl2 } with hob2
        have h1n : BookInv ob2 := setLevel_pres LevelInv h1 hwInv
        have h2n : noCancelled ob2 := by
          intro e2 he2n x hx
          exact setLevel_pres (fun l => ∀ x ∈ l.orders, x.status ≠ OrderStatus.cancelled)
            (fun e3 he3 => h2 e3 he3) hwNC e2 he2n x hx
        have h3n : filledZero ob2 := by
          intro e2 he2n x hx
          exact setLevel_pres (fun l => ∀ x ∈ l.orders, x.status = OrderStatus.filled → x.remaining = 0)
            (fun e3 he3 => h3 e3 he3) hwFZ e2 he2n x hx
        have hreap : ∀ x ∈ lvl2.orders, completedOrCancelled x = true → x.remaining = 0 := by
          intro x hx hc
          unfold completedOrCancelled at hc
          rcases Bool.or_eq_true_iff.mp hc with hcc | hcc
          · exact hwFZ x hx (by simpa using hcc)
          · exact absurd (by simpa using hcc) (hwNC x hx)
        have hkeptInv : LevelInv { lvl2 with
            orders := lvl2.orders.filter (fun o => !(completedOrCancelled o)) } := by
          unfold LevelInv at hwInv ⊢
          simp only
          rw [sum_filter_not_completed hreap]
          exact hwInv
        set ob3 := ob2.processCompletedOrders lvl2 with hob3
        have h1r : BookInv ob3 := processCompleted_pres ob2 lvl2 LevelInv h1n hkeptInv
        have h2r : noCancelled ob3 := by
          intro e2 he2n x hx
          refine processCompleted_pres ob2 lvl2
            (fun l => ∀ y ∈ l.orders, y.status ≠ OrderStatus.cancelled)
            (fun e3 he3 => h2n e3 he3) ?_ e2 he2n x hx
          intro y hy
          exact hwNC y (List.mem_filter.mp hy).1
        have h3r : filledZero ob3 := by
          intro e2 he2n x hx
          refine processCompleted_pres ob2 lvl2
            (fun l => ∀ y ∈ l.orders, y.status = OrderStatus.filled → y.remaining = 0)
            (fun e3 he3 => h3n e3 he3) ?_ e2 he2n x hx
          intro y hy
          exact hwFZ y (List.mem_filter.mp hy).1
        by_cases hw : w.takerFilled
        · simp only [hw, if_true]
          exact ⟨h1r, h2r, h3r⟩
        · simp only [Bool.not_eq_true] at hw
          simp only [hw, Bool.false_eq_true, if_false]
          exact ih ob3 w.remaining w.taker h1r h2r h3r
      · simp only [Bool.not_eq_true'] at ha
        simp only [ha, Bool.not_false, if_true]
        exact ⟨h1, h2, h3⟩

/-- `AddOrder` preserves the aggregate invariant. -/
theorem addOrder_BookInv (ob : OrderBook) (o : Order) (ob2 : OrderBook)
    (h : ob.addOrder o = Except.ok ob2) (hinv : BookInv ob) : BookInv ob2 := by
  unfold OrderBook.addOrder at h
  by_cases hid : o.orderID ∈ ob.orderMap
  · rw [if_pos hid] at h
    exact absurd h (by simp)
  · rw [if_neg hid] at h
    cases hl : levelLookup ob.priceLevels o.price with
    | some level =>
      rw [hl] at h
      simp only [Except.ok.injEq] at h
      obtain ⟨e, he, he2, he1⟩ := levelLookup_eq_some hl
      have hlvl : LevelInv level := he2 ▸ hinv e he
      rw [← h]
      apply setLevel_pres LevelInv hinv
      unfold LevelInv at hlvl ⊢
      simp only [List.map_append, List.sum_append, List.map_cons, List.sum_cons,
        List.map_nil, List.sum_nil]
      rw [hlvl]
      ring
    | none =>
      rw [hl] at h
      simp only [Except.ok.injEq] at h
      rw [← h]
      intro e he
      rcases List.mem_cons.mp he with hh | hh
      · rw [hh]
        unfold LevelInv
        simp
      · exact hinv e hh

/-- The matching phase preserves the invariant bundle. -/
theorem matchPhase_inv (ob : OrderBook) (now : Int) (o : Order)
    (h1 : BookInv ob) (h2 : noCancelled ob) (h3 : filledZero ob) :
    BookInv (ob.matchPhase now o).book
    ∧ noCancelled (ob.matchPhase now o).book
    ∧ filledZero (ob.matchPhase now o).book := by
  rw [matchPhase_def]
  exact matchLoop_inv now (isMatchFn o) _ ob o.remaining o h1 h2 h3

/-- `MatchOrder` preserves the aggregate invariant. -/
theorem matchOrder_BookInv (ob : OrderBook) (now : Int) (o : Order)
    (h1 : BookInv ob) (h2 : noCancelled ob) (h3 : filledZero ob) :
    BookInv (ob.matchOrder now o).book := by
  have hph := matchPhase_inv ob now o h1 h2 h3
  simp only [OrderBook.matchOrder]
  set r := ob.matchPhase now o with hr
  by_cases h : r.completed = false ∧ r.remaining > 0
  · rw [if_pos h]
    cases hadd : r.book.addOrder { r.taker with remaining := r.remaining, status := OrderStatus.partFilled, updateTime := now } with
    | ok ob2 => exact addOrder_BookInv r.book _ ob2 hadd hph.1
    | error e => exact hph.1
  · rw [if_neg h]
    exact hph.1

/-- Elements of a list with nodup image under `f` are determined by their
image. -/
theorem eq_of_nodup_map {α β : Type} (f : α → β) {l : List α}
    (h : (l.map f).Nodup) {a b : α} (ha : a ∈ l) (hb : b ∈ l)
    (hf : f a = f b) : a = b := by
  revert h ha hb
  induction l with
  | nil =>
    intro h ha hb
    exact absurd ha (List.not_mem_nil a)
  | cons y rest ih =>
    intro h ha hb
    rw [List.map_cons, List.nodup_cons] at h
    rcases List.mem_cons.mp ha with haa | haa <;> rcases List.mem_cons.mp hb with hbb | hbb
    · rw [haa, hbb]
    · exfalso
      apply h.1
      rw [haa] at hf
      rw [hf]
      exact List.mem_map.mpr ⟨b, hbb, rfl⟩
    · exfalso
      apply h.1
      rw [hbb] at hf
      rw [← hf]
      exact List.mem_map.mpr ⟨a, haa, rfl⟩
    · exact ih h.2 haa hbb

/-- Unpacking a successful `findSome?`. -/
theorem findSome?_eq_some_mem {α β : Type} {l : List α} {f : α → Option β} {b : β}
    (h : l.findSome? f = some b) : ∃ a ∈ l, f a = some b := by
  induction l with
  | nil => simp [List.findSome?] at h
  | cons a l ih =>
    rw [List.findSome?_cons] at h
    cases hf : f a with
    | some b2 =>
      rw [hf] at h
      have h2 : some b2 = some b := h
      exact ⟨a, List.mem_cons_self _ _, hf.trans h2⟩
    | none =>
      rw [hf] at h
      have h2 : List.findSome? f l = some b := h
      obtain ⟨a2, ha2, hf2⟩ := ih h2
      exact ⟨a2, List.mem_cons_of_mem _ ha2, hf2⟩

/-- Unpacking a successful `findOrder`: the order sits in some level of
the price map and carries the looked-up id. -/
theorem findOrder_eq_some {ob : OrderBook} {id : String} {o : Order}
    (h : ob.findOrder id = some o) :
    ∃ e ∈ ob.priceLevels, o ∈ e.2.orders ∧ o.orderID = id := by
  unfold OrderBook.findOrder at h
  obtain ⟨lv, hlv, hfind⟩ := findSome?_eq_some_mem h
  obtain ⟨e, he, he2⟩ := List.mem_map.mp hlv
  have hmem := List.mem_of_find?_eq_some hfind
  have hpred := List.find?_some hfind
  exact ⟨e, he, by rw [he2]; exact hmem, by simpa using hpred⟩

/-- A level member is a member of `allOrders`. -/
theorem mem_allOrders {ob : OrderBook} {e : ℚ × PriceLevel} {x : Order}
    (he : e ∈ ob.priceLevels) (hx : x ∈ e.2.orders) : x ∈ allOrders ob := by
  unfold allOrders
  rw [List.mem_flatten]
  exact ⟨e.2.orders, List.mem_map.mpr ⟨e, he, rfl⟩, hx⟩

/-- Global id uniqueness restricts to each level. -/
theorem level_ids_nodup {ob : OrderBook} (hnd : idsNodup ob)
    {e : ℚ × PriceLevel} (he : e ∈ ob.priceLevels) :
    (e.2.orders.map (fun o => o.orderID)).Nodup := by
  unfold idsNodup allOrders at hnd
  rw [List.map_flatten] at hnd
  have hmem : e.2.orders.map (fun o => o.orderID)
      ∈ (ob.priceLevels.map (fun e => e.2.orders)).map (List.map (fun o => o.orderID)) :=
    List.mem_map.mpr ⟨e.2.orders, List.mem_map.mpr ⟨e, he, rfl⟩, rfl⟩
  exact List.Nodup.sublist (List.sublist_flatten_of_mem hmem) hnd

/-- Removing the unique order with a given id from a FIFO lowers the
remaining sum by exactly that order's remaining. -/
theorem sum_filter_ne_id {l : List Order} {x : Order} (hx : x ∈ l)
    (hnd : (l.map (fun o => o.orderID)).Nodup) :
    ((l.filter (fun o => o.orderID != x.orderID)).map (fun o => o.remaining)).sum
      = (l.map (fun o => o.remaining)).sum - x.remaining := by
  revert hx hnd
  induction l with
  | nil =>
    intro hx hnd
    exact absurd hx (List.not_mem_nil x)
  | cons y rest ih =>
    intro hx hnd
    rw [List.map_cons, List.nodup_cons] at hnd
    rcases List.mem_cons.mp hx with hxy | hxr
    · have hdrop : (y.orderID != x.orderID) = false := by
        rw [hxy]
        simp
      have hkeep : rest.filter (fun o => o.orderID != x.orderID) = rest := by
        apply List.filter_eq_self.mpr
        intro a haa
        have : a.orderID ≠ y.orderID := by
          intro hc
          exact hnd.1 (hc ▸ List.mem_map.mpr ⟨a, haa, rfl⟩)
        rw [hxy]
        simpa using this
      simp only [List.filter_cons, hdrop, Bool.false_eq_true, if_false, hkeep,
        List.map_cons, List.sum_cons]
      rw [hxy]
      ring
    · have hkeepy : (y.orderID != x.orderID) = true := by
        have : y.orderID ≠ x.orderID := by
          intro hc
          exact hnd.1 (hc ▸ List.mem_map.mpr ⟨x, hxr, rfl⟩)
        simpa using this
      simp only [List.filter_cons, hkeepy, if_true, List.map_cons, List.sum_cons]
      rw [ih hxr hnd.2]
      ring

/-- `CancelOrder` preserves the aggregate invariant (given global id
uniqueness, so that the id map dereference, the level lookup and the
level removal all name the same order). -/
theorem cancelOrder_BookInv (ob : OrderBook) (now : Int) (id : String)
    (ob2 : OrderBook) (oc : Order)
    (hinv : BookInv ob) (hnd : idsNodup ob)
    (h : ob.cancelOrder now id = Except.ok (ob2, oc)) : BookInv ob2 := by
  unfold OrderBook.cancelOrder at h
  by_cases hid : id ∈ ob.orderMap
  · rw [if_pos hid] at h
    cases hf : ob.findOrder id with
    | none =>
      rw [hf] at h
      exact absurd h (by simp)
    | some order =>
      rw [hf] at h
      simp only [] at h
      by_cases hst : order.status ≠ OrderStatus.pending ∧ order.status ≠ OrderStatus.partFilled
      · rw [if_pos hst] at h
        exact absurd h (by simp)
      · rw [if_neg hst] at h
        cases hl : levelLookup ob.priceLevels order.price with
        | none =>
          rw [hl] at h
          exact absurd h (by simp)
        | some level =>
          rw [hl] at h
          simp only [] at h
          by_cases hfnd : (level.orders.find? (fun o => o.orderID == id)).isSome = true
          · rw [if_pos hfnd] at h
            simp only [Except.ok.injEq, Prod.mk.injEq] at h
            obtain ⟨hob2, _⟩ := h
            obtain ⟨e, he, he2, he1⟩ := levelLookup_eq_some hl
            obtain ⟨eo, heo, hoo, hoid⟩ := findOrder_eq_some hf
            obtain ⟨x, hxmem, hxpred⟩ := List.find?_isSome.mp hfnd
            have hxid : x.orderID = id := by simpa using hxpred
            have hnd2 : ((allOrders ob).map (fun o => o.orderID)).Nodup := hnd
            have hxo : x = order := by
              apply eq_of_nodup_map (fun o => o.orderID) hnd2
              · exact mem_allOrders he (by rw [he2]; exact hxmem)
              · exact mem_allOrders heo hoo
              · rw [hxid, hoid]
            have hord_mem : order ∈ level.orders := hxo ▸ hxmem
            have hlnd : (level.orders.map (fun o => o.orderID)).Nodup := by
              have := level_ids_nodup hnd he
              rw [he2] at this
              exact this
            have hsum := sum_filter_ne_id hord_mem hlnd
            have hlvlInv : LevelInv level := he2 ▸ hinv e he
            have hl2inv : LevelInv
                { level with
                  orders := level.orders.filter (fun o => o.orderID != id)
                  totalQty := level.totalQty - order.remaining } := by
              unfold LevelInv at hlvlInv ⊢
              simp only
              rw [hoid] at hsum
              rw [hsum, hlvlInv]
            rw [← hob2]
            by_cases hemp : ((level.orders.filter (fun o => o.orderID != id)).isEmpty) = true
            · simp only [hemp, if_true]
              intro e3 he3
              exact hinv e3 (List.mem_filter.mp he3).1
            · simp only [hemp, Bool.false_eq_true, if_false]
              exact setLevel_pres LevelInv hinv hl2inv
          · rw [if_neg hfnd] at h
            exact absurd h (by simp)
  · rw [if_neg hid] at h
    exact absurd h (by simp)

/-- Claim C9: the per-level aggregate invariant — `TotalQty` equals the
sum of the remaining quantities over the FIFO — is preserved by
`AddOrder`, by `MatchOrder` (every match decrement and the reaping pass
included), and by `CancelOrder`.  The match part assumes no FIFO holds a
cancelled order and that filled FIFO members have zero remaining; the
cancel part assumes global id uniqueness (both are spec invariants and
hold of every state the source constructs). -/
theorem C9_aggregate_invariant (ob : OrderBook) (now : Int) (o : Order) (id : String) :
    (∀ ob2, ob.addOrder o = Except.ok ob2 → BookInv ob → BookInv ob2)
    ∧ (BookInv ob → noCancelled ob → filledZero ob →
        BookInv (ob.matchOrder now o).book)
    ∧ (∀ ob2 oc, BookInv ob → idsNodup ob →
        ob.cancelOrder now id = Except.ok (ob2, oc) → BookInv ob2) :=
  ⟨fun ob2 h hinv => addOrder_BookInv ob o ob2 h hinv,
   fun h1 h2 h3 => matchOrder_BookInv ob now o h1 h2 h3,
   fun ob2 oc hinv hnd h => cancelOrder_BookInv ob now id ob2 oc hinv hnd h⟩

def c9Sell : Order := mkOrder "s2" "u2" Side.sell 100 2 false

def c9Base : OrderBook := addOrderD emptyBook (mkOrder "s1" "u1" Side.sell 99 1 false)

def c9CancelRes : OrderBook × Order :=
  match c4Book.cancelOrder 9 "s2" with
  | .ok r => r
  | .error _ => (emptyBook, c4Buy)

/-- Witness for C9, exercising all three conjuncts on concrete books:
inserting `s2` into the one-ask book preserves the invariant; matching
`c4Buy` against the two-ask book preserves it; cancelling `s2` preserves
it. -/
theorem C9_aggregate_invariant_witness :
    (BookInv c9Base ∧ BookInv c4Book ∧ noCancelled c4Book ∧ filledZero c4Book ∧ idsNodup c4Book)
    ∧ BookInv c4Book
    ∧ BookInv (c4Book.matchOrder 7 c4Buy).book
    ∧ BookInv c9CancelRes.1 :=
  ⟨⟨by decide, by decide, by decide, by decide, by decide⟩,
   (C9_aggregate_invariant c9Base 7 c9Sell "x").1 c4Book (by decide) (by decide),
   (C9_aggregate_invariant c4Book 7 c4Buy "x").2.1 (by decide) (by decide) (by decide),
   (C9_aggregate_invariant c4Book 9 c4Buy "s2").2.2 c9CancelRes.1 c9CancelRes.2
     (by decide) (by decide) (by decide)⟩

/-! ### Cancel semantics (claim C7) -/

/-- After deleting all entries at `p`, a lookup at `p` fails. -/
theorem levelLookup_eraseLevel_self (m : List (ℚ × PriceLevel)) (p : ℚ) :
    levelLookup (eraseLevel m p) p = none := by
  unfold levelLookup
  rw [Option.map_eq_none']
  rw [List.find?_eq_none]
  intro e he
  have := (List.mem_filter.mp he).2
  simp only [bne_iff_ne, ne_eq] at this
  simpa using this

/-- An entry of a written-back map that carries the written key carries
the written level. -/
theorem mem_setLevel_self {m : List (ℚ × PriceLevel)} {p : ℚ} {l : PriceLevel}
    {e : ℚ × PriceLevel} (he : e ∈ setLevel m p l) (h1 : e.1 = p) : e.2 = l := by
  unfold setLevel at he
  obtain ⟨e0, he0, heq⟩ := List.mem_map.mp he
  by_cases hp : (e0.1 == p) = true
  · rw [if_pos hp] at heq
    rw [← heq]
  · rw [if_neg hp] at heq
    exfalso
    apply hp
    rw [heq, h1]
    simp

/-- A lookup at `p` after writing `l` at `p` yields `l` if it yields
anything. -/
theorem levelLookup_setLevel_self {m : List (ℚ × PriceLevel)} {p : ℚ}
    {l l2 : PriceLevel} (h : levelLookup (setLevel m p l) p = some l2) :
    l2 = l := by
  obtain ⟨e, he, he2, he1⟩ := levelLookup_eq_some h
  rw [← he2]
  exact mem_setLevel_self he he1

/-- An element never survives a filter that excludes its own key. -/
theorem not_mem_filter_bne {α : Type} [DecidableEq α] (l : List α) (a : α) :
    a ∉ l.filter (fun x => x != a) := by
  intro h
  have := (List.mem_filter.mp h).2
  simp at this

/-- Claim C7: `CancelOrder` fails with not-found when the id is absent
from the global id map; fails with not-cancellable when the order's
status is neither `pending` nor `partFilled`; and otherwise succeeds,
returning the order marked `cancelled` with the fresh update timestamp,
removing the id from the global map and the order from its price level,
deleting the level from the price map and from its own side's btree when
it emptied — and a second cancel of the same id then fails with
not-found. -/
theorem C7_cancel_semantics (ob : OrderBook) (now now2 : Int) (id : String) :
    (id ∉ ob.orderMap → ob.cancelOrder now id = Except.error CancelErr.notFound)
    ∧ (∀ o, id ∈ ob.orderMap → ob.findOrder id = some o →
        o.status ≠ OrderStatus.pending → o.status ≠ OrderStatus.partFilled →
        ob.cancelOrder now id = Except.error CancelErr.notCancellable)
    ∧ (∀ o level, id ∈ ob.orderMap → ob.findOrder id = some o →
        (o.status = OrderStatus.pending ∨ o.status = OrderStatus.partFilled) →
        levelLookup ob.priceLevels o.price = some level →
        (level.orders.find? (fun x => x.orderID == id)).isSome = true →
        ∃ ob2 oc, ob.cancelOrder now id = Except.ok (ob2, oc)
          ∧ oc.status = OrderStatus.cancelled
          ∧ oc.updateTime = now
          ∧ oc.orderID = id
          ∧ id ∉ ob2.orderMap
          ∧ (∀ level2, levelLookup ob2.priceLevels o.price = some level2 →
              ∀ x ∈ level2.orders, x.orderID ≠ id)
          ∧ ((level.orders.filter (fun x => x.orderID != id)).isEmpty = true →
              levelLookup ob2.priceLevels o.price = none
              ∧ (o.side = Side.buy → o.price ∉ ob2.bids)
              ∧ (o.side = Side.sell → o.price ∉ ob2.asks))
          ∧ ob2.cancelOrder now2 id = Except.error CancelErr.notFound) := by
  refine ⟨?_, ?_, ?_⟩
  · intro hid
    unfold OrderBook.cancelOrder
    rw [if_neg hid]
  · intro o hid hfind h3 h4
    unfold OrderBook.cancelOrder
    rw [if_pos hid]
    simp only [hfind]
    simp [h3, h4]
  · intro o level hid hfind hs hlev hfnd
    have hstatus : ¬(o.status ≠ OrderStatus.pending ∧ o.status ≠ OrderStatus.partFilled) := by
      rcases hs with h | h
      · exact fun hc => hc.1 h
      · exact fun hc => hc.2 h
    have hoid : o.orderID = id := (findOrder_eq_some hfind).choose_spec.2.2
    cases hres : ob.cancelOrder now id with
    | error e =>
      exfalso
      unfold OrderBook.cancelOrder at hres
      rw [if_pos hid, hfind] at hres
      simp only [] at hres
      rw [if_neg hstatus, hlev] at hres
      simp only [] at hres
      rw [if_pos hfnd] at hres
      exact absurd hres (by simp)
    | ok pair =>
      obtain ⟨ob2v, ocv⟩ := pair
      unfold OrderBook.cancelOrder at hres
      rw [if_pos hid, hfind] at hres
      simp only [] at hres
      rw [if_neg hstatus, hlev] at hres
      simp only [] at hres
      rw [if_pos hfnd] at hres
      simp only [Except.ok.injEq, Prod.mk.injEq] at hres
      obtain ⟨hbook, hord⟩ := hres
      refine ⟨ob2v, ocv, rfl, ?_, ?_, ?_, ?_, ?_, ?_, ?_⟩
      · rw [← hord]
      · rw [← hord]
      · rw [← hord]
        exact hoid
      · rw [← hbook]
        exact not_mem_filter_bne _ id
      · intro level2 hlk x hx
        rw [← hbook] at hlk
        by_cases hemp : ((level.orders.filter (fun o2 => o2.orderID != id)).isEmpty) = true
        · rw [if_pos hemp] at hlk
          have hlk2 : levelLookup (eraseLevel ob.priceLevels o.price) o.price
              = some level2 := hlk
          rw [levelLookup_eraseLevel_self] at hlk2
          exact absurd hlk2 (by simp)
        · rw [if_neg hemp] at hlk
          have hlk2 : levelLookup (setLevel ob.priceLevels o.price
              { level with
                orders := level.orders.filter (fun o2 => o2.orderID != id)
                totalQty := level.totalQty - o.remaining }) o.price = some level2 := hlk
          have hl2 := levelLookup_setLevel_self hlk2
          rw [hl2] at hx
          have hxk := (List.mem_filter.mp hx).2
          simpa using hxk
      · intro hemp
        rw [← hbook]
        rw [if_pos hemp]
        refine ⟨?_, ?_, ?_⟩
        · have : levelLookup (eraseLevel ob.priceLevels o.price) o.price = none :=
            levelLookup_eraseLevel_self _ _
          exact this
        · intro hside
          rw [hside]
          intro hc
          exact not_mem_filter_bne ob.bids o.price (by exact hc)
        · intro hside
          rw [hside]
          intro hc
          exact not_mem_filter_bne ob.asks o.price (by exact hc)
      · unfold OrderBook.cancelOrder
        have hnm : id ∉ ob2v.orderMap := by
          rw [← hbook]
          exact not_mem_filter_bne _ id
        rw [if_neg hnm]

def c7Book : OrderBook := addOrderD emptyBook (mkOrder "b1" "u1" Side.buy 100 2 false)

def c7Level : PriceLevel :=
  (c7Book.priceLevels.map (fun e : ℚ × PriceLevel => e.2)).headD ⟨0, 0, []⟩

/-- Witness for C7: cancelling a pending bid of 2 at 100 succeeds, marks
it cancelled, empties and removes the level and the bid tree entry, and a
second cancel fails with not-found. -/
theorem C7_cancel_semantics_witness :
    ("b1" ∈ c7Book.orderMap
      ∧ c7Book.findOrder "b1" = some (mkOrder "b1" "u1" Side.buy 100 2 false)
      ∧ ((mkOrder "b1" "u1" Side.buy 100 2 false).status = OrderStatus.pending
          ∨ (mkOrder "b1" "u1" Side.buy 100 2 false).status = OrderStatus.partFilled))
    ∧ (∃ ob2 oc, c7Book.cancelOrder 9 "b1" = Except.ok (ob2, oc)
        ∧ oc.status = OrderStatus.cancelled
        ∧ oc.updateTime = 9
        ∧ oc.orderID = "b1"
        ∧ "b1" ∉ ob2.orderMap
        ∧ (∀ level2, levelLookup ob2.priceLevels
              (mkOrder "b1" "u1" Side.buy 100 2 false).price = some level2 →
            ∀ x ∈ level2.orders, x.orderID ≠ "b1")
        ∧ ((c7Level.orders.filter (fun x => x.orderID != "b1")).isEmpty = true →
            levelLookup ob2.priceLevels (mkOrder "b1" "u1" Side.buy 100 2 false).price = none
            ∧ ((mkOrder "b1" "u1" Side.buy 100 2 false).side = Side.buy →
                (mkOrder "b1" "u1" Side.buy 100 2 false).price ∉ ob2.bids)
            ∧ ((mkOrder "b1" "u1" Side.buy 100 2 false).side = Side.sell →
                (mkOrder "b1" "u1" Side.buy 100 2 false).price ∉ ob2.asks))
        ∧ ob2.cancelOrder 11 "b1" = Except.error CancelErr.notFound) :=
  ⟨⟨by decide, by decide, by decide⟩,
    (C7_cancel_semantics c7Book 9 11 "b1").2.2 (mkOrder "b1" "u1" Side.buy 100 2 false)
      c7Level (by decide) (by decide) (by decide) (by decide) (by decide)⟩

end GolangMatchOrder
